import Mathlib

/-!
# Synthetic transactions (`src/txn/txn_types.h`)

A shallow embedding of the four transaction classes `Noop`, `Expect`, `Put`
and `RMW`, followed by the properties proved about them.

Conventions of the embedding:

* C++ `int` values are mathematical integers (`Int`).  Under the hypotheses of
  every theorem below all intermediate values are bounded by `dbsize`, so no
  `int` computation can overflow there.  `/` and `%` are the truncating C++
  operators; a zero divisor is an error of the model.
* `rand()` is a list of non-negative draws that is consumed from the front;
  every call takes one draw.  A constructor that needs a draw when the list is
  used up has not completed on that list (`Err.noDraws`).
* `std::set<Key>` and `std::map<Key, Value>` are strictly ascending lists, the
  order in which the C++ iterators walk them.
* `Value` is a type parameter `V`; the code only needs `!=`, `0`, `1`, `+`.
* `COMMIT` and `ABORT` are macros of `txn.h`, which is not among the sources.
  As the spec describes them, each sets the outcome and ends `Run` at once.
* `Run` is a function from the object and the execution context to the object
  and the context after the call; the context records every call of `Read`
  and `Write`.
-/

namespace TxnTypes

/-! ## Library containers -/

/-- Modelled from the spec: the `Key` typedef of `txn.h`, which is not part of
the sources at hand.  The spec describes a key as an integer in the range
`[0, dbsize)`; the constructors compute keys with `int` arithmetic. -/
abbrev Key := Int

/-- Insertion into the strictly ascending key list behind a `std::set`:
a key that is already present leaves the list unchanged. -/
def insertKey (key : Key) : List Key → List Key
  | [] => [key]
  | x :: xs =>
    if key < x then key :: x :: xs
    else if key = x then x :: xs
    else x :: insertKey key xs

/-- Insertion into the strictly ascending entry list behind a `std::map`:
`insert` keeps the old entry when the key is already present. -/
def insertEntry {V : Type} (key : Key) (value : V) : List (Key × V) → List (Key × V)
  | [] => [(key, value)]
  | (x, y) :: rest =>
    if key < x then (key, value) :: (x, y) :: rest
    else if key = x then (x, y) :: rest
    else (x, y) :: insertEntry key value rest

theorem mem_insertKey (key a : Key) (l : List Key) :
    a ∈ insertKey key l ↔ a = key ∨ a ∈ l := by
  induction l with
  | nil => simp [insertKey]
  | cons x xs ih =>
    unfold insertKey
    split_ifs with h1 h2
    · simp
    · subst h2; simp
    · simp only [List.mem_cons, ih]; tauto

theorem pairwise_insertKey (key : Key) (l : List Key) (h : l.Pairwise (· < ·)) :
    (insertKey key l).Pairwise (· < ·) := by
  induction l with
  | nil => simp [insertKey]
  | cons x xs ih =>
    unfold insertKey
    rw [List.pairwise_cons] at h
    split_ifs with h1 h2
    · refine List.pairwise_cons.2 ⟨?_, List.pairwise_cons.2 h⟩
      intro a ha
      rcases List.mem_cons.1 ha with rfl | ha
      · exact h1
      · exact lt_trans h1 (h.1 a ha)
    · exact List.pairwise_cons.2 h
    · refine List.pairwise_cons.2 ⟨?_, ih h.2⟩
      intro a ha
      rcases (mem_insertKey key a xs).1 ha with rfl | ha
      · exact lt_of_le_of_ne (not_lt.1 h1) (Ne.symm h2)
      · exact h.1 a ha

theorem length_insertKey_of_not_mem (key : Key) (l : List Key) (h : key ∉ l) :
    (insertKey key l).length = l.length + 1 := by
  induction l with
  | nil => simp [insertKey]
  | cons x xs ih =>
    unfold insertKey
    rw [List.mem_cons, not_or] at h
    split_ifs with h1 h2
    · simp
    · exact absurd h2 h.1
    · simp [ih h.2]

theorem mem_insertEntry_fst {V : Type} (key a : Key) (value : V) (l : List (Key × V)) :
    a ∈ (insertEntry key value l).map Prod.fst ↔ a = key ∨ a ∈ l.map Prod.fst := by
  induction l with
  | nil => simp [insertEntry]
  | cons x xs ih =>
    obtain ⟨x, y⟩ := x
    unfold insertEntry
    split_ifs with h1 h2
    · simp
    · subst h2; simp
    · simp only [List.map_cons, List.mem_cons, ih]; tauto

theorem pairwise_insertEntry {V : Type} (key : Key) (value : V) (l : List (Key × V))
    (h : (l.map Prod.fst).Pairwise (· < ·)) :
    ((insertEntry key value l).map Prod.fst).Pairwise (· < ·) := by
  induction l with
  | nil => simp [insertEntry]
  | cons x xs ih =>
    obtain ⟨x, y⟩ := x
    unfold insertEntry
    rw [List.map_cons, List.pairwise_cons] at h
    split_ifs with h1 h2
    · refine List.pairwise_cons.2 ⟨?_, List.pairwise_cons.2 h⟩
      intro a ha
      rcases List.mem_cons.1 ha with rfl | ha
      · exact h1
      · exact lt_trans h1 (h.1 a ha)
    · exact List.pairwise_cons.2 h
    · refine List.pairwise_cons.2 ⟨?_, ih h.2⟩
      intro a ha
      rcases (mem_insertEntry_fst key a value xs).1 ha with rfl | ha
      · exact lt_of_le_of_ne (not_lt.1 h1) (Ne.symm h2)
      · exact h.1 a ha

/-- A `std::set<Key>` (also used for `std::set<int>`): its elements in
iteration order, which is strictly ascending. -/
structure StdSet where
  keys : List Key
  ascending : keys.Pairwise (· < ·)
deriving DecidableEq

/-- A `std::map<Key, Value>`: its entries in iteration order, strictly
ascending by key. -/
structure StdMap (V : Type) where
  entries : List (Key × V)
  ascending : (entries.map Prod.fst).Pairwise (· < ·)

namespace StdSet

instance : Membership Key StdSet := ⟨fun s key => key ∈ s.keys⟩

instance (key : Key) (s : StdSet) : Decidable (key ∈ s) :=
  inferInstanceAs (Decidable (key ∈ s.keys))

/-- The default-constructed, empty set. -/
def empty : StdSet := ⟨[], List.Pairwise.nil⟩

/-- The member function `insert`. -/
def insert (s : StdSet) (key : Key) : StdSet :=
  ⟨insertKey key s.keys, pairwise_insertKey key s.keys s.ascending⟩

/-- The member function `count`: 1 when the key is present, else 0. -/
def count (s : StdSet) (key : Key) : Nat := if key ∈ s.keys then 1 else 0

/-- The member function `find`: the element found, `none` for `end()`. -/
def find (s : StdSet) (key : Key) : Option Key := if key ∈ s.keys then some key else none

/-- The member function `size`. -/
def size (s : StdSet) : Nat := s.keys.length

end StdSet

namespace StdMap

/-- The default-constructed, empty map. -/
def empty {V : Type} : StdMap V := ⟨[], List.Pairwise.nil⟩

/-- The member function `insert` (the form `std::inserter` calls). -/
def insert {V : Type} (m : StdMap V) (key : Key) (value : V) : StdMap V :=
  ⟨insertEntry key value m.entries, pairwise_insertEntry key value m.entries m.ascending⟩

/-- The key domain of a map, in iteration order. -/
def domain {V : Type} (m : StdMap V) : List Key := m.entries.map Prod.fst

end StdMap

/-! ## The transaction base class and the execution context -/

/-- Modelled from the spec: the outcome state of a transaction (`status_` in
`txn.h`, absent from the sources): one of pending, committed, aborted. -/
inductive Outcome where
  | pending
  | committed
  | aborted
deriving DecidableEq, Repr

/-- Modelled from the spec: the base class `Txn` of `txn.h` (absent from the
sources): a transaction is composed of its declared Readset, its declared
Writeset and its outcome. -/
structure Txn where
  readset_ : StdSet
  writeset_ : StdSet
  status_ : Outcome
deriving DecidableEq

/-- One call of a primitive of the execution context. -/
inductive Access (V : Type) where
  | read (key : Key)
  | write (key : Key) (value : V)
deriving DecidableEq

/-- Modelled from the spec: the external execution context that `Run` works
against: the store the primitives are bound to, and the calls made so far. -/
structure Context (V : Type) where
  store : Key → Option V
  log : List (Access V)

/-- Modelled from the spec: the primitive `Read(key) -> (found, value)` of
`txn.h`/`txn.cc` (absent from the sources).  `none` is "not found"; in that
case the C++ out-parameter keeps the value it had. -/
def Read {V : Type} (c : Context V) (key : Key) : Option V × Context V :=
  (c.store key, { c with log := c.log ++ [Access.read key] })

/-- Modelled from the spec: the primitive `Write(key, value)` of
`txn.h`/`txn.cc` (absent from the sources). -/
def Write {V : Type} (c : Context V) (key : Key) (value : V) : Context V :=
  { store := fun k => if k = key then some value else c.store k,
    log := c.log ++ [Access.write key value] }

/-- The keys passed to `Read` in a log of calls. -/
def readKeys {V : Type} : List (Access V) → List Key
  | [] => []
  | Access.read key :: rest => key :: readKeys rest
  | Access.write _ _ :: rest => readKeys rest

/-- The arguments passed to `Write` in a log of calls. -/
def writeCalls {V : Type} : List (Access V) → List (Key × V)
  | [] => []
  | Access.read _ :: rest => writeCalls rest
  | Access.write key value :: rest => (key, value) :: writeCalls rest

/-- The context in which an execution starts: a store and no call made yet. -/
def Context.start {V : Type} (store : Key → Option V) : Context V :=
  { store := store, log := [] }

/-! ## Noop, Expect, Put -/

/-- The class `Noop`: nothing beyond the base class. -/
structure Noop extends Txn
deriving DecidableEq

/-- The class `Expect`: the base class and the expected mapping `m_`. -/
structure Expect (V : Type) extends Txn where
  m_ : StdMap V

/-- The class `Put`: the base class and the mapping `m_` to store. -/
structure Put (V : Type) extends Txn where
  m_ : StdMap V

/-- Modelled from the spec: the default constructor of the base class `Txn`
(`txn.h`, absent from the sources): both declared sets empty, outcome
pending. -/
def Txn.fresh : Txn :=
  { readset_ := StdSet.empty, writeset_ := StdSet.empty, status_ := Outcome.pending }

/-- The constructor `Noop()`. -/
def Noop.new : Noop := { toTxn := Txn.fresh }

/-- The method `Noop::Run`: `COMMIT`. -/
def Noop.Run {V : Type} (t : Noop) (c : Context V) : Noop × Context V :=
  ({ t with status_ := Outcome.committed }, c)

/-- The constructor `Expect(const map<Key, Value>& m)`: `m_` is a copy of `m`,
and every key of `m_` is inserted into `readset_`. -/
def Expect.ofMap {V : Type} (m : StdMap V) : Expect V :=
  { readset_ := m.entries.foldl (fun readset_ it => readset_.insert it.1) StdSet.empty,
    writeset_ := StdSet.empty,
    status_ := Outcome.pending,
    m_ := m }

/-- The constructor `Expect(const set<Key> s)`: the local map receives
`(key, 1)` for every key of `s` through an inserter, is assigned to `m_`, and
every key of `s` is inserted into `readset_`. -/
def Expect.ofSet {V : Type} [One V] (s : StdSet) : Expect V :=
  { readset_ := s.keys.foldl (fun readset_ key => readset_.insert key) StdSet.empty,
    writeset_ := StdSet.empty,
    status_ := Outcome.pending,
    m_ := s.keys.foldl (fun m arg => m.insert arg 1) StdMap.empty }

/-- The `for` loop of `Expect::Run` over the entries of `m_` that remain.
The boolean is `true` when the loop reached `ABORT` (which returns from `Run`
at once) and `false` when it ran to the end. -/
def Expect.RunLoop {V : Type} [DecidableEq V] :
    List (Key × V) → Context V → Bool × Context V
  | [], c => (false, c)
  | it :: rest, c =>
    match Read c it.1 with
    | (none, c1) => (true, c1)
    | (some result, c1) =>
      if result ≠ it.2 then (true, c1) else Expect.RunLoop rest c1

/-- The method `Expect::Run`: the loop, then `COMMIT` unless the loop
returned through `ABORT`. -/
def Expect.Run {V : Type} [DecidableEq V] (t : Expect V) (c : Context V) :
    Expect V × Context V :=
  match Expect.RunLoop t.m_.entries c with
  | (true, c1) => ({ t with status_ := Outcome.aborted }, c1)
  | (false, c1) => ({ t with status_ := Outcome.committed }, c1)

/-- The constructor `Put(const map<Key, Value>& m)`: `m_` is a copy of `m`,
and every key of `m_` is inserted into `writeset_`. -/
def Put.ofMap {V : Type} (m : StdMap V) : Put V :=
  { readset_ := StdSet.empty,
    writeset_ := m.entries.foldl (fun writeset_ it => writeset_.insert it.1) StdSet.empty,
    status_ := Outcome.pending,
    m_ := m }

/-- The method `Put::Run`: `Write` every entry of `m_`, then `COMMIT`. -/
def Put.Run {V : Type} (t : Put V) (c : Context V) : Put V × Context V :=
  ({ t with status_ := Outcome.committed },
   t.m_.entries.foldl (fun c it => Write c it.1 it.2) c)

/-! ## RMW -/

/-- A C++ `double`, carried as its bit pattern; the model does no arithmetic
on it. -/
structure Double where
  bits : Nat
deriving DecidableEq

/-- The class `RMW`: the base class and the simulated duration `time_`. -/
structure RMW extends Txn where
  time_ : Double
deriving DecidableEq

/-- The ways in which a constructor call can fail to produce an object. -/
inductive Err where
  | dcheck
  | noDraws
  | divByZero
  | outOfRange
deriving DecidableEq, Repr

/-- Modelled from the spec: the macro `DCHECK` (its definition is not among
the sources): a violated configuration precondition is a fatal
construction-time error. -/
def DCHECK (cond : Bool) : Except Err Unit :=
  if cond then Except.ok () else Except.error Err.dcheck

/-- The C++ operator `/` on `int`: truncating, undefined for a zero divisor. -/
def cdiv (a b : Int) : Except Err Int :=
  if b = 0 then Except.error Err.divByZero else Except.ok (Int.tdiv a b)

/-- The C++ operator `%` on `int`: remainder of the truncating division,
undefined for a zero divisor. -/
def cmod (a b : Int) : Except Err Int :=
  if b = 0 then Except.error Err.divByZero else Except.ok (Int.tmod a b)

/-- The member function `at` of `vector<int>`: bounds-checked access. -/
def vectorAt (v : List Int) (i : Int) : Except Err Int :=
  if i < 0 then Except.error Err.outOfRange
  else match v[i.toNat]? with
    | some x => Except.ok x
    | none => Except.error Err.outOfRange

/-- The rejection loop `do { key = <expression in rand()>; } while (<taken>);`
that the randomized constructors repeat: `keyOf` is the expression as a
function of the value of `rand()`, `taken` the loop condition.  Every
iteration consumes one draw. -/
def doWhile (keyOf : Int → Except Err Key) (taken : Key → Bool) :
    List Nat → Except Err (Key × List Nat)
  | [] => Except.error Err.noDraws
  | r :: rest =>
    match keyOf (r : Int) with
    | Except.error e => Except.error e
    | Except.ok key => if taken key then doWhile keyOf taken rest else Except.ok (key, rest)

/-- The constructor `RMW(double time)`. -/
def RMW.ofTime (time : Double) : RMW := { toTxn := Txn.fresh, time_ := time }

/-- The constructor `RMW(const set<Key>& writeset, double time)`. -/
def RMW.ofWriteset (writeset : StdSet) (time : Double) : RMW :=
  { readset_ := StdSet.empty, writeset_ := writeset, status_ := Outcome.pending,
    time_ := time }

/-- The constructor `RMW(const set<Key>& readset, const set<Key>& writeset,
double time)`. -/
def RMW.ofSets (readset writeset : StdSet) (time : Double) : RMW :=
  { readset_ := readset, writeset_ := writeset, status_ := Outcome.pending,
    time_ := time }

/-- The first loop of `RMW(int dbsize, int readsetsize, int writesetsize,
double time)` with `n` iterations to go: find unique read keys. -/
def RMW.randomReads (dbsize : Int) :
    Nat → StdSet → List Nat → Except Err (StdSet × List Nat)
  | 0, readset_, draws => Except.ok (readset_, draws)
  | n + 1, readset_, draws =>
    match doWhile (fun r => cmod r dbsize) (fun key => readset_.count key ≠ 0) draws with
    | Except.error e => Except.error e
    | Except.ok (key, rest) => RMW.randomReads dbsize n (readset_.insert key) rest

/-- The second loop of the same constructor with `n` iterations to go: find
unique write keys. -/
def RMW.randomWrites (dbsize : Int) (readset_ : StdSet) :
    Nat → StdSet → List Nat → Except Err (StdSet × List Nat)
  | 0, writeset_, draws => Except.ok (writeset_, draws)
  | n + 1, writeset_, draws =>
    match doWhile (fun r => cmod r dbsize)
        (fun key => readset_.count key ≠ 0 || writeset_.count key ≠ 0) draws with
    | Except.error e => Except.error e
    | Except.ok (key, rest) => RMW.randomWrites dbsize readset_ n (writeset_.insert key) rest

/-- The constructor `RMW(int dbsize, int readsetsize, int writesetsize,
double time)`, "with randomized read/write sets".  Returns the object and the
draws that are left. -/
def RMW.randomized (dbsize readsetsize writesetsize : Int) (time : Double)
    (draws : List Nat) : Except Err (RMW × List Nat) :=
  match DCHECK (decide (dbsize ≥ readsetsize + writesetsize)) with
  | Except.error e => Except.error e
  | Except.ok _ =>
    match RMW.randomReads dbsize readsetsize.toNat StdSet.empty draws with
    | Except.error e => Except.error e
    | Except.ok (readset_, draws1) =>
      match RMW.randomWrites dbsize readset_ writesetsize.toNat StdSet.empty draws1 with
      | Except.error e => Except.error e
      | Except.ok (writeset_, draws2) =>
        Except.ok ({ readset_ := readset_, writeset_ := writeset_,
                     status_ := Outcome.pending, time_ := time }, draws2)

/-- The first statement of the partition constructor:
`if (k > thread_count) k = thread_count;`. -/
def RMW.clampK (k thread_count : Int) : Int :=
  if k > thread_count then thread_count else k

/-- The loop `while (counter < k)` of the partition constructor, "create set
with k different values": every iteration draws a key, takes the index of its
chunk and records the index when it is new.  Returns the vector `v`, the set
`partitions` and the draws that are left. -/
def RMW.selectPartitions (dbsize chunk_size k : Int) :
    StdSet → List Int → Int → List Nat → Except Err (List Int × StdSet × List Nat)
  | partitions, v, counter, [] =>
    if counter < k then Except.error Err.noDraws else Except.ok (v, partitions, [])
  | partitions, v, counter, r :: rest =>
    if counter < k then
      match cmod (r : Int) dbsize with
      | Except.error e => Except.error e
      | Except.ok key =>
        match cdiv key chunk_size with
        | Except.error e => Except.error e
        | Except.ok index =>
          if partitions.find index = none then
            RMW.selectPartitions dbsize chunk_size k (partitions.insert index)
              (v ++ [index]) (counter + 1) rest
          else
            RMW.selectPartitions dbsize chunk_size k partitions v counter rest
    else Except.ok (v, partitions, r :: rest)

/-- The key expression `(rand() % chunk_size) + (index * chunk_size)` as a
function of the value of `rand()`. -/
def RMW.chunkKey (chunk_size index : Int) (r : Int) : Except Err Key :=
  match cmod r chunk_size with
  | Except.error e => Except.error e
  | Except.ok x => Except.ok (x + index * chunk_size)

/-- The body that the write loop and the read loop of the partition
constructor have in common, up to the final `insert`: in the coverage branch
(`count_across < k`) the partition is `v.at(i)` and `count_across` is
incremented, in the fill branch it is `v.at(rand() % k)`; then a key of that
chunk is drawn until it is in neither set.  Returns the key, the new
`count_across` and the draws that are left. -/
def RMW.nextKey (chunk_size k : Int) (v : List Int) (i count_across : Int)
    (readset_ writeset_ : StdSet) (draws : List Nat) : Except Err (Key × Int × List Nat) :=
  if count_across < k then
    match vectorAt v i with
    | Except.error e => Except.error e
    | Except.ok index =>
      match doWhile (RMW.chunkKey chunk_size index)
          (fun key => readset_.count key ≠ 0 || writeset_.count key ≠ 0) draws with
      | Except.error e => Except.error e
      | Except.ok (key, rest) => Except.ok (key, count_across + 1, rest)
  else
    match draws with
    | [] => Except.error Err.noDraws
    | r :: draws0 =>
      match cmod (r : Int) k with
      | Except.error e => Except.error e
      | Except.ok j =>
        match vectorAt v j with
        | Except.error e => Except.error e
        | Except.ok index =>
          match doWhile (RMW.chunkKey chunk_size index)
              (fun key => readset_.count key ≠ 0 || writeset_.count key ≠ 0) draws0 with
          | Except.error e => Except.error e
          | Except.ok (key, rest) => Except.ok (key, count_across, rest)

/-- The write loop of the partition constructor, `for (int i = 0; i <
writesetsize; i++)`, at counter `i` with `n` iterations to go. -/
def RMW.partitionWrites (chunk_size k : Int) (v : List Int) (readset_ : StdSet) :
    Nat → Int → Int → StdSet → List Nat → Except Err (StdSet × Int × List Nat)
  | 0, _, count_across, writeset_, draws => Except.ok (writeset_, count_across, draws)
  | n + 1, i, count_across, writeset_, draws =>
    match RMW.nextKey chunk_size k v i count_across readset_ writeset_ draws with
    | Except.error e => Except.error e
    | Except.ok (key, count_across1, rest) =>
      RMW.partitionWrites chunk_size k v readset_ n (i + 1) count_across1
        (writeset_.insert key) rest

/-- The read loop of the partition constructor, `for (int i = 0; i <
readsetsize; i++)`, at counter `i` with `n` iterations to go. -/
def RMW.partitionReads (chunk_size k : Int) (v : List Int) (writeset_ : StdSet) :
    Nat → Int → Int → StdSet → List Nat → Except Err (StdSet × Int × List Nat)
  | 0, _, count_across, readset_, draws => Except.ok (readset_, count_across, draws)
  | n + 1, i, count_across, readset_, draws =>
    match RMW.nextKey chunk_size k v i count_across readset_ writeset_ draws with
    | Except.error e => Except.error e
    | Except.ok (key, count_across1, rest) =>
      RMW.partitionReads chunk_size k v writeset_ n (i + 1) count_across1
        (readset_.insert key) rest

/-- The constructor `RMW(int dbsize, int readsetsize, int writesetsize, int k,
int thread_count, double time)`, "creates a RMW across k partitions".  Returns
the object and the draws that are left. -/
def RMW.acrossPartitions (dbsize readsetsize writesetsize k thread_count : Int)
    (time : Double) (draws : List Nat) : Except Err (RMW × List Nat) :=
  let k := RMW.clampK k thread_count
  match DCHECK (decide (dbsize ≥ readsetsize + writesetsize)) with
  | Except.error e => Except.error e
  | Except.ok _ =>
    match cdiv dbsize thread_count with
    | Except.error e => Except.error e
    | Except.ok chunk_size =>
      match RMW.selectPartitions dbsize chunk_size k StdSet.empty [] 0 draws with
      | Except.error e => Except.error e
      | Except.ok (v, _, draws1) =>
        match RMW.partitionWrites chunk_size k v StdSet.empty
            writesetsize.toNat 0 0 StdSet.empty draws1 with
        | Except.error e => Except.error e
        | Except.ok (writeset_, count_across, draws2) =>
          match RMW.partitionReads chunk_size k v writeset_
              readsetsize.toNat 0 count_across StdSet.empty draws2 with
          | Except.error e => Except.error e
          | Except.ok (readset_, _, draws3) =>
            Except.ok ({ readset_ := readset_, writeset_ := writeset_,
                         status_ := Outcome.pending, time_ := time }, draws3)

/-- The body of the last loop of `RMW::Run` for one key of `writeset_`:
`result = 0; Read(key, &result); Write(key, result + 1);`.  A `Read` that
does not find the key leaves `result` at 0. -/
def RMW.incrementKey {V : Type} [Zero V] [One V] [Add V] (c : Context V) (key : Key) :
    Context V :=
  let result : V := 0
  match Read c key with
  | (none, c1) => Write c1 key (result + 1)
  | (some found, c1) => Write c1 key (found + 1)

/-- The method `RMW::Run`: `Read` every key of `readset_` and discard the
result; busy-wait for `time_` (the wait touches neither the object nor the
context and is left out); for every key of `writeset_` run the increment
above; `COMMIT`. -/
def RMW.Run {V : Type} [Zero V] [One V] [Add V] (t : RMW) (c : Context V) :
    RMW × Context V :=
  let c1 := t.readset_.keys.foldl (fun c key => (Read c key).2) c
  let c2 := t.writeset_.keys.foldl RMW.incrementKey c1
  ({ t with status_ := Outcome.committed }, c2)

/-- The partition index of a key: the number of the chunk it lies in. -/
def partitionOf (chunk_size : Int) (key : Key) : Int := Int.tdiv key chunk_size

/-- The set of partition indices that the declared sets of a transaction
touch. -/
def touched (chunk_size : Int) (t : Txn) : Finset Int :=
  ((t.readset_.keys ++ t.writeset_.keys).map (partitionOf chunk_size)).toFinset

/-! ## Any transaction -/

/-- A transaction of any of the four classes, as the scheduler holds it
through a pointer to the base class. -/
inductive AnyTxn (V : Type) where
  | noop (t : Noop)
  | expect (t : Expect V)
  | put (t : Put V)
  | rmw (t : RMW)

/-- The base-class part of a transaction of any class. -/
def AnyTxn.base {V : Type} : AnyTxn V → Txn
  | AnyTxn.noop t => t.toTxn
  | AnyTxn.expect t => t.toTxn
  | AnyTxn.put t => t.toTxn
  | AnyTxn.rmw t => t.toTxn

/-- The virtual call `Run()` on a transaction of any class. -/
def AnyTxn.Run {V : Type} [DecidableEq V] [Zero V] [One V] [Add V] :
    AnyTxn V → Context V → AnyTxn V × Context V
  | AnyTxn.noop t, c => (AnyTxn.noop (t.Run c).1, (t.Run c).2)
  | AnyTxn.expect t, c => (AnyTxn.expect (t.Run c).1, (t.Run c).2)
  | AnyTxn.put t, c => (AnyTxn.put (t.Run c).1, (t.Run c).2)
  | AnyTxn.rmw t, c => (AnyTxn.rmw (t.Run c).1, (t.Run c).2)

/-- The instances that the constructors of the four classes build: one rule
for each constructor of `txn_types.h`; a randomized constructor builds one on
every list of draws on which it completes. -/
inductive Constructed {V : Type} [One V] : AnyTxn V → Prop where
  | noop : Constructed (AnyTxn.noop Noop.new)
  | expectOfMap (m : StdMap V) : Constructed (AnyTxn.expect (Expect.ofMap m))
  | expectOfSet (s : StdSet) : Constructed (AnyTxn.expect (Expect.ofSet s))
  | putOfMap (m : StdMap V) : Constructed (AnyTxn.put (Put.ofMap m))
  | rmwOfTime (time : Double) : Constructed (AnyTxn.rmw (RMW.ofTime time))
  | rmwOfWriteset (writeset : StdSet) (time : Double) :
      Constructed (AnyTxn.rmw (RMW.ofWriteset writeset time))
  | rmwOfSets (readset writeset : StdSet) (time : Double) :
      Constructed (AnyTxn.rmw (RMW.ofSets readset writeset time))
  | rmwRandomized (dbsize readsetsize writesetsize : Int) (time : Double)
      (draws rest : List Nat) (t : RMW)
      (h : RMW.randomized dbsize readsetsize writesetsize time draws = Except.ok (t, rest)) :
      Constructed (AnyTxn.rmw t)
  | rmwAcrossPartitions (dbsize readsetsize writesetsize k thread_count : Int) (time : Double)
      (draws rest : List Nat) (t : RMW)
      (h : RMW.acrossPartitions dbsize readsetsize writesetsize k thread_count time draws
        = Except.ok (t, rest)) :
      Constructed (AnyTxn.rmw t)

/-- The instances that the constructors build when every caller of
`RMW(readset, writeset)` passes two sets without a common key.  The rules are
those of `Constructed`, one for each constructor of `txn_types.h`; only the
rule for `RMW(readset, writeset)` carries the condition on the sets of the
caller, which that constructor stores as they are. -/
inductive ConstructedFromDisjoint {V : Type} [One V] : AnyTxn V → Prop where
  | noop : ConstructedFromDisjoint (AnyTxn.noop Noop.new)
  | expectOfMap (m : StdMap V) : ConstructedFromDisjoint (AnyTxn.expect (Expect.ofMap m))
  | expectOfSet (s : StdSet) : ConstructedFromDisjoint (AnyTxn.expect (Expect.ofSet s))
  | putOfMap (m : StdMap V) : ConstructedFromDisjoint (AnyTxn.put (Put.ofMap m))
  | rmwOfTime (time : Double) : ConstructedFromDisjoint (AnyTxn.rmw (RMW.ofTime time))
  | rmwOfWriteset (writeset : StdSet) (time : Double) :
      ConstructedFromDisjoint (AnyTxn.rmw (RMW.ofWriteset writeset time))
  | rmwOfSets (readset writeset : StdSet) (time : Double)
      (hdisjoint : ∀ key, key ∈ readset → key ∉ writeset) :
      ConstructedFromDisjoint (AnyTxn.rmw (RMW.ofSets readset writeset time))
  | rmwRandomized (dbsize readsetsize writesetsize : Int) (time : Double)
      (draws rest : List Nat) (t : RMW)
      (h : RMW.randomized dbsize readsetsize writesetsize time draws = Except.ok (t, rest)) :
      ConstructedFromDisjoint (AnyTxn.rmw t)
  | rmwAcrossPartitions (dbsize readsetsize writesetsize k thread_count : Int) (time : Double)
      (draws rest : List Nat) (t : RMW)
      (h : RMW.acrossPartitions dbsize readsetsize writesetsize k thread_count time draws
        = Except.ok (t, rest)) :
      ConstructedFromDisjoint (AnyTxn.rmw t)

/-! ## clone -/

/-- Modelled from the spec: the helper `Txn::CopyTxnInternals(Txn* txn)` of
`txn.cc` (absent from the sources), which every `clone` calls on the object it
has just created: the clone receives "the same declared Readset/Writeset" and
keeps the "fresh outcome state" that its constructor gave it. -/
def Txn.CopyTxnInternals (this txn : Txn) : Txn :=
  { readset_ := this.readset_, writeset_ := this.writeset_, status_ := txn.status_ }

/-- The method `Noop::clone`: `new Noop()`, then `CopyTxnInternals`. -/
def Noop.clone (this : Noop) : Noop :=
  let clone := Noop.new
  { clone with toTxn := this.toTxn.CopyTxnInternals clone.toTxn }

/-- The method `Expect::clone`: `new Expect(map<Key, Value>(m_))`, then
`CopyTxnInternals`. -/
def Expect.clone {V : Type} (this : Expect V) : Expect V :=
  let clone := Expect.ofMap this.m_
  { clone with toTxn := this.toTxn.CopyTxnInternals clone.toTxn }

/-- The method `Put::clone`: `new Put(map<Key, Value>(m_))`, then
`CopyTxnInternals`. -/
def Put.clone {V : Type} (this : Put V) : Put V :=
  let clone := Put.ofMap this.m_
  { clone with toTxn := this.toTxn.CopyTxnInternals clone.toTxn }

/-- The method `RMW::clone`: `new RMW(time_)`, then `CopyTxnInternals`. -/
def RMW.clone (this : RMW) : RMW :=
  let clone := RMW.ofTime this.time_
  { clone with toTxn := this.toTxn.CopyTxnInternals clone.toTxn }

/-- The virtual call `clone()` on a transaction of any class. -/
def AnyTxn.clone {V : Type} : AnyTxn V → AnyTxn V
  | AnyTxn.noop t => AnyTxn.noop t.clone
  | AnyTxn.expect t => AnyTxn.expect t.clone
  | AnyTxn.put t => AnyTxn.put t.clone
  | AnyTxn.rmw t => AnyTxn.rmw t.clone

/-- The four classes. -/
inductive Variant where
  | Noop
  | Expect
  | Put
  | RMW
deriving DecidableEq, Repr

/-- The class of a transaction held through the base class. -/
def AnyTxn.variant {V : Type} : AnyTxn V → Variant
  | AnyTxn.noop _ => Variant.Noop
  | AnyTxn.expect _ => Variant.Expect
  | AnyTxn.put _ => Variant.Put
  | AnyTxn.rmw _ => Variant.RMW

/-- The configuration that a class adds to the base class: nothing for `Noop`,
the mapping `m_` for `Expect` and `Put`, the duration `time_` for `RMW`. -/
def AnyTxn.config {V : Type} : AnyTxn V → Option (List (Key × V)) × Option Double
  | AnyTxn.noop _ => (none, none)
  | AnyTxn.expect t => (some t.m_.entries, none)
  | AnyTxn.put t => (some t.m_.entries, none)
  | AnyTxn.rmw t => (none, some t.time_)

/-- The outcome of a transaction held through the base class, overwritten. -/
def AnyTxn.setStatus {V : Type} (o : Outcome) : AnyTxn V → AnyTxn V
  | AnyTxn.noop t => AnyTxn.noop { t with status_ := o }
  | AnyTxn.expect t => AnyTxn.expect { t with status_ := o }
  | AnyTxn.put t => AnyTxn.put { t with status_ := o }
  | AnyTxn.rmw t => AnyTxn.rmw { t with status_ := o }

/-- The free store: the objects created by `new`, each addressed by its
position. -/
structure Heap (V : Type) where
  objects : List (AnyTxn V)

/-- The expression `new T(...)`: the object is placed at a position that was not
in use, and that position is the pointer returned. -/
def Heap.alloc {V : Type} (h : Heap V) (a : AnyTxn V) : Heap V × Nat :=
  ({ objects := h.objects ++ [a] }, h.objects.length)

/-- The object a pointer refers to. -/
def Heap.deref {V : Type} (h : Heap V) (p : Nat) : Option (AnyTxn V) := h.objects[p]?

/-- The outcome of the object behind a pointer, overwritten in place (what
`COMMIT` and `ABORT` do to `status_`). -/
def Heap.setStatus {V : Type} (h : Heap V) (p : Nat) (o : Outcome) : Heap V :=
  { objects := h.objects.modify (AnyTxn.setStatus o) p }

/-- The call `p->clone()` through a pointer: the clone is built from the object
behind `p` and placed in the free store; the result is the pointer to it. -/
def Heap.clone {V : Type} (h : Heap V) (p : Nat) : Option (Heap V × Nat) :=
  match h.deref p with
  | none => none
  | some a => some (h.alloc a.clone)

/-! ## Expect from a key set -/

/-- The mapping that the spec assigns to `Expect` of a key set, `key -> 1` for
every key of the set (the "default expected value"), written down directly
rather than built by insertion. -/
def constantOneMap {V : Type} [One V] (s : StdSet) : StdMap V :=
  { entries := s.keys.map (fun key => (key, (1 : V))),
    ascending := by
      rw [List.map_map]
      exact (List.map_id s.keys).symm ▸ s.ascending }

/-! ## Worked examples -/

/-- The object that `RMW(5, 2, 2)` builds when `rand()` returns 3, 3, 1, 1, 4,
0: the reads take 3, reject the second 3 and take 1; the writes reject 1 and
take 4 and 0. -/
def exampleRandomized : RMW :=
  { readset_ := ⟨[1, 3], by decide⟩, writeset_ := ⟨[0, 4], by decide⟩,
    status_ := Outcome.pending, time_ := ⟨0⟩ }

/-- The object that `RMW(100, 2, 3, 2, 10)` builds when `rand()` returns 5, 15,
3, 7, 1, 4, 0, 8, 1, 9: `v = [0, 1]`; the writes are 3 in partition 0, 17 in
partition 1 and, in the fill branch, 14 in partition `v.at(1)`; the reads, both
in the fill branch, are 8 in `v.at(0)` and 19 in `v.at(1)`. -/
def exampleAcross : RMW :=
  { readset_ := ⟨[8, 19], by decide⟩, writeset_ := ⟨[3, 14, 17], by decide⟩,
    status_ := Outcome.pending, time_ := ⟨0⟩ }

/-- The object that `RMW(100, 1, 1, 2, 10)` builds when `rand()` returns 5, 15,
3, 7: `v = [0, 1]`; the write is 3 in `v.at(0)`, and the read, in the coverage
branch with `i = 0`, is 7 in `v.at(0)` again. -/
def exampleRepeated : RMW :=
  { readset_ := ⟨[7], by decide⟩, writeset_ := ⟨[3], by decide⟩,
    status_ := Outcome.pending, time_ := ⟨0⟩ }

/-- The object that `RMW(5, 0, 1, 1, 2)` builds when `rand()` returns 4, 1:
`chunk_size = 2`, the selected index is `4 / 2 = 2`, and the write is
`1 % 2 + 2 * 2 = 5`. -/
def exampleBeyond : RMW :=
  { readset_ := ⟨[], by decide⟩, writeset_ := ⟨[5], by decide⟩,
    status_ := Outcome.pending, time_ := ⟨0⟩ }

/-- The object `RMW(readset, writeset)` with Readset 1, 2 and Writeset 3, held
through the base class. -/
def exampleSets : AnyTxn Nat :=
  AnyTxn.rmw (RMW.ofSets ⟨[1, 2], by decide⟩ ⟨[3], by decide⟩ ⟨0⟩)

/-- A free store holding one object, the `Expect` of the mapping 5 -> 10,
7 -> 20, at position 0. -/
def exampleHeap : Heap Nat :=
  { objects := [AnyTxn.expect (Expect.ofMap ⟨[(5, 10), (7, 20)], by decide⟩)] }

/-- The object `RMW(readset, writeset)` with Readset 1 and Writeset 1, held
through the base class. -/
def exampleOverlap : AnyTxn Nat :=
  AnyTxn.rmw (RMW.ofSets ⟨[1], by decide⟩ ⟨[1], by decide⟩ ⟨0⟩)

/-! ## Facts about the containers and the C++ operators -/

theorem StdSet.mem_iff (s : StdSet) (a : Key) : a ∈ s ↔ a ∈ s.keys := Iff.rfl

theorem StdSet.mem_insert (s : StdSet) (key a : Key) :
    a ∈ s.insert key ↔ a = key ∨ a ∈ s :=
  mem_insertKey key a s.keys

theorem StdSet.size_insert (s : StdSet) (key : Key) (h : key ∉ s) :
    (s.insert key).size = s.size + 1 :=
  length_insertKey_of_not_mem key s.keys h

theorem StdSet.not_mem_empty (a : Key) : a ∉ StdSet.empty := by
  simp [StdSet.mem_iff, StdSet.empty]

theorem StdSet.count_ne_zero (s : StdSet) (key : Key) : s.count key ≠ 0 ↔ key ∈ s := by
  unfold StdSet.count
  by_cases h : key ∈ s.keys
  · simp [h, StdSet.mem_iff]
  · simp [h, StdSet.mem_iff]

theorem StdSet.count_eq_zero (s : StdSet) (key : Key) : s.count key = 0 ↔ key ∉ s := by
  rw [← StdSet.count_ne_zero]; simp

theorem cmod_ok (a b x : Int) (h : cmod a b = Except.ok x) : b ≠ 0 ∧ x = Int.tmod a b := by
  unfold cmod at h
  split_ifs at h with hb
  exact ⟨hb, by injection h with h; exact h.symm⟩

theorem cdiv_ok (a b x : Int) (h : cdiv a b = Except.ok x) : b ≠ 0 ∧ x = Int.tdiv a b := by
  unfold cdiv at h
  split_ifs at h with hb
  exact ⟨hb, by injection h with h; exact h.symm⟩

theorem cmod_range (r : Nat) (m x : Int) (hm : 0 < m) (h : cmod (r : Int) m = Except.ok x) :
    0 ≤ x ∧ x < m := by
  obtain ⟨-, rfl⟩ := cmod_ok _ _ _ h
  rw [Int.tmod_eq_emod (Int.natCast_nonneg r) (le_of_lt hm)]
  exact ⟨Int.emod_nonneg _ (ne_of_gt hm), Int.emod_lt_of_pos _ hm⟩

theorem doWhile_ok (keyOf : Int → Except Err Key) (taken : Key → Bool) :
    ∀ (draws : List Nat) (key : Key) (rest : List Nat),
      doWhile keyOf taken draws = Except.ok (key, rest) →
      taken key = false ∧ ∃ r : Nat, keyOf (r : Int) = Except.ok key := by
  intro draws
  induction draws with
  | nil => intro key rest h; simp [doWhile] at h
  | cons r ds ih =>
    intro key rest h
    unfold doWhile at h
    split at h
    · exact absurd h (by simp)
    · rename_i key1 hk
      split_ifs at h with ht
      · exact ih key rest h
      · injection h with h
        injection h with h1 h2
        subst h1
        exact ⟨by simpa using ht, r, hk⟩

/-! ## The whole-keyspace constructor -/

theorem randomReads_ok (dbsize : Int) (hdb : 0 < dbsize) :
    ∀ (n : Nat) (readset_ : StdSet) (draws : List Nat) (out : StdSet) (rest : List Nat),
      RMW.randomReads dbsize n readset_ draws = Except.ok (out, rest) →
      out.size = readset_.size + n ∧
      ∀ key, key ∈ out → key ∈ readset_ ∨ (0 ≤ key ∧ key < dbsize) := by
  intro n
  induction n with
  | zero =>
    intro readset_ draws out rest h
    simp only [RMW.randomReads] at h
    injection h with h
    injection h with h1 h2
    subst h1
    exact ⟨rfl, fun key hk => Or.inl hk⟩
  | succ n ih =>
    intro readset_ draws out rest h
    simp only [RMW.randomReads] at h
    split at h
    · exact absurd h (by simp)
    · rename_i key rest1 hd
      obtain ⟨hfree, r, hr⟩ := doWhile_ok _ _ _ _ _ hd
      have hnot : key ∉ readset_ := by
        rw [← StdSet.count_eq_zero]
        simpa using hfree
      obtain ⟨hsize, hmem⟩ := ih _ _ _ _ h
      refine ⟨by rw [hsize, StdSet.size_insert _ _ hnot]; omega, ?_⟩
      intro a ha
      rcases hmem a ha with h1 | h1
      · rcases (StdSet.mem_insert _ _ _).1 h1 with rfl | h2
        · exact Or.inr (cmod_range r dbsize _ hdb hr)
        · exact Or.inl h2
      · exact Or.inr h1

theorem randomWrites_ok (dbsize : Int) (hdb : 0 < dbsize) (readset_ : StdSet) :
    ∀ (n : Nat) (writeset_ : StdSet) (draws : List Nat) (out : StdSet) (rest : List Nat),
      RMW.randomWrites dbsize readset_ n writeset_ draws = Except.ok (out, rest) →
      out.size = writeset_.size + n ∧
      ∀ key, key ∈ out →
        key ∈ writeset_ ∨ (key ∉ readset_ ∧ 0 ≤ key ∧ key < dbsize) := by
  intro n
  induction n with
  | zero =>
    intro writeset_ draws out rest h
    simp only [RMW.randomWrites] at h
    injection h with h
    injection h with h1 h2
    subst h1
    exact ⟨rfl, fun key hk => Or.inl hk⟩
  | succ n ih =>
    intro writeset_ draws out rest h
    simp only [RMW.randomWrites] at h
    split at h
    · exact absurd h (by simp)
    · rename_i key rest1 hd
      obtain ⟨hfree, r, hr⟩ := doWhile_ok _ _ _ _ _ hd
      have hfree2 : key ∉ readset_ ∧ key ∉ writeset_ := by
        rw [← StdSet.count_eq_zero, ← StdSet.count_eq_zero]
        simpa using hfree
      obtain ⟨hsize, hmem⟩ := ih _ _ _ _ h
      refine ⟨by rw [hsize, StdSet.size_insert _ _ hfree2.2]; omega, ?_⟩
      intro a ha
      rcases hmem a ha with h1 | h1
      · rcases (StdSet.mem_insert _ _ _).1 h1 with rfl | h2
        · exact Or.inr ⟨hfree2.1, cmod_range r dbsize _ hdb hr⟩
        · exact Or.inl h2
      · exact Or.inr h1

/-- C1: when the whole-keyspace constructor `RMW(dbsize, readsetsize,
writesetsize)` completes on a list of draws, with `dbsize >= 1`, both sizes
non-negative and `readsetsize + writesetsize <= dbsize`, the Readset has
`readsetsize` keys, the Writeset has `writesetsize` keys, the two sets are
disjoint, and every key of either set lies in `[0, dbsize)`. -/
theorem RMW_randomized_sets (dbsize readsetsize writesetsize : Int) (time : Double)
    (draws rest : List Nat) (t : RMW)
    (hdb : 1 ≤ dbsize) (hr : 0 ≤ readsetsize) (hw : 0 ≤ writesetsize)
    (_hcap : readsetsize + writesetsize ≤ dbsize)
    (hrun : RMW.randomized dbsize readsetsize writesetsize time draws = Except.ok (t, rest)) :
    (t.readset_.size : Int) = readsetsize ∧
    (t.writeset_.size : Int) = writesetsize ∧
    (∀ key, key ∈ t.readset_ → key ∉ t.writeset_) ∧
    (∀ key, key ∈ t.readset_ ∨ key ∈ t.writeset_ → 0 ≤ key ∧ key < dbsize) := by
  unfold RMW.randomized at hrun
  split at hrun
  · exact absurd hrun (by simp)
  · split at hrun
    · exact absurd hrun (by simp)
    · rename_i rs draws1 hreads
      split at hrun
      · exact absurd hrun (by simp)
      · rename_i ws draws2 hwrites
        injection hrun with hrun
        injection hrun with ht hrest
        subst ht
        obtain ⟨hrsize, hrmem⟩ := randomReads_ok dbsize (by omega) _ _ _ _ _ hreads
        obtain ⟨hwsize, hwmem⟩ := randomWrites_ok dbsize (by omega) rs _ _ _ _ _ hwrites
        have hre : ∀ key, key ∈ rs → 0 ≤ key ∧ key < dbsize := fun key hk =>
          (hrmem key hk).resolve_left (StdSet.not_mem_empty key)
        have hwe : ∀ key, key ∈ ws → key ∉ rs ∧ 0 ≤ key ∧ key < dbsize := fun key hk =>
          (hwmem key hk).resolve_left (StdSet.not_mem_empty key)
        refine ⟨?_, ?_, ?_, ?_⟩
        · show (rs.size : Int) = readsetsize
          rw [hrsize]
          simp only [StdSet.size, StdSet.empty, List.length_nil, zero_add]
          exact Int.toNat_of_nonneg hr
        · show (ws.size : Int) = writesetsize
          rw [hwsize]
          simp only [StdSet.size, StdSet.empty, List.length_nil, zero_add]
          exact Int.toNat_of_nonneg hw
        · intro key hk1 hk2
          exact (hwe key hk2).1 hk1
        · intro key hk
          rcases hk with hk | hk
          · exact hre key hk
          · exact (hwe key hk).2

/-- Witness for C1: `RMW(5, 2, 2)` on the draws 3, 3, 1, 1, 4, 0 completes with
Readset {1, 3} and Writeset {0, 4}. -/
theorem RMW_randomized_sets_witness :
    RMW.randomized 5 2 2 ⟨0⟩ [3, 3, 1, 1, 4, 0] = Except.ok (exampleRandomized, []) ∧
    ((exampleRandomized.readset_.size : Int) = 2 ∧
     (exampleRandomized.writeset_.size : Int) = 2 ∧
     (∀ key, key ∈ exampleRandomized.readset_ → key ∉ exampleRandomized.writeset_) ∧
     (∀ key, key ∈ exampleRandomized.readset_ ∨ key ∈ exampleRandomized.writeset_ →
       0 ≤ key ∧ key < 5)) :=
  ⟨rfl,
   RMW_randomized_sets 5 2 2 ⟨0⟩ [3, 3, 1, 1, 4, 0] [] exampleRandomized
     (by decide) (by decide) (by decide) (by decide) rfl⟩

/-! ## The partition constructor -/

theorem vectorAt_ok (v : List Int) (i x : Int) (h : vectorAt v i = Except.ok x) :
    0 ≤ i ∧ v[i.toNat]? = some x := by
  unfold vectorAt at h
  split_ifs at h with hi
  split at h
  · rename_i y hy
    injection h with h
    subst h
    exact ⟨not_lt.1 hi, hy⟩
  · exact absurd h (by simp)

theorem vectorAt_mem (v : List Int) (i x : Int) (h : vectorAt v i = Except.ok x) : x ∈ v :=
  List.getElem?_mem (vectorAt_ok v i x h).2

theorem chunk_size_pos (dbsize thread_count chunk_size : Int) (h1 : 1 ≤ thread_count)
    (h2 : thread_count ≤ dbsize) (h : cdiv dbsize thread_count = Except.ok chunk_size) :
    chunk_size = Int.tdiv dbsize thread_count ∧ 1 ≤ chunk_size := by
  obtain ⟨-, rfl⟩ := cdiv_ok _ _ _ h
  refine ⟨rfl, ?_⟩
  rw [Int.tdiv_eq_ediv (by omega) (by omega)]
  exact Int.le_ediv_of_mul_le (by omega) (by omega)

theorem chunkKey_range (chunk_size index : Int) (r : Nat) (key : Key) (hc : 0 < chunk_size)
    (h : RMW.chunkKey chunk_size index (r : Int) = Except.ok key) :
    index * chunk_size ≤ key ∧ key < (index + 1) * chunk_size := by
  unfold RMW.chunkKey at h
  split at h
  · exact absurd h (by simp)
  · rename_i x hx
    injection h with h
    subst h
    obtain ⟨h0, h1⟩ := cmod_range r chunk_size x hc hx
    have e : (index + 1) * chunk_size = index * chunk_size + chunk_size := by ring
    rw [e]
    constructor <;> linarith

theorem partitionOf_chunk (chunk_size p : Int) (key : Key) (hc : 0 < chunk_size) (hp : 0 ≤ p)
    (h1 : p * chunk_size ≤ key) (h2 : key < (p + 1) * chunk_size) :
    partitionOf chunk_size key = p := by
  unfold partitionOf
  have hk : 0 ≤ key := le_trans (mul_nonneg hp (le_of_lt hc)) h1
  rw [Int.tdiv_eq_ediv hk (le_of_lt hc)]
  have a : p ≤ key / chunk_size := Int.le_ediv_of_mul_le hc h1
  have b : key / chunk_size < p + 1 := Int.ediv_lt_of_lt_mul hc h2
  exact le_antisymm (Int.lt_add_one_iff.1 b) a

theorem selectPartitions_ok (dbsize chunk_size k : Int) (hdb : 0 < dbsize)
    (hc : 0 < chunk_size) :
    ∀ (draws : List Nat) (partitions : StdSet) (v : List Int) (counter : Int)
      (out : List Int) (parts : StdSet) (rest : List Nat),
      RMW.selectPartitions dbsize chunk_size k partitions v counter draws
        = Except.ok (out, parts, rest) →
      out.length = v.length + (k - counter).toNat ∧
      ∀ x, x ∈ out → x ∈ v ∨ 0 ≤ x := by
  intro draws
  induction draws with
  | nil =>
    intro partitions v counter out parts rest h
    unfold RMW.selectPartitions at h
    split_ifs at h with hlt
    injection h with h
    injection h with h1 h2
    subst h1
    refine ⟨?_, fun x hx => Or.inl hx⟩
    have : (k - counter).toNat = 0 := by omega
    omega
  | cons r ds ih =>
    intro partitions v counter out parts rest h
    unfold RMW.selectPartitions at h
    split_ifs at h with hlt
    · split at h
      · exact absurd h (by simp)
      · rename_i key hkey
        split at h
        · exact absurd h (by simp)
        · rename_i index hindex
          obtain ⟨hk0, -⟩ := cmod_range r dbsize key hdb hkey
          obtain ⟨-, hidx⟩ := cdiv_ok _ _ _ hindex
          have hnn : 0 ≤ index := by
            rw [hidx]; exact Int.tdiv_nonneg hk0 (le_of_lt hc)
          split_ifs at h with hnew
          · obtain ⟨hlen, hmem⟩ := ih _ _ _ _ _ _ h
            refine ⟨?_, ?_⟩
            · rw [hlen, List.length_append, List.length_singleton]
              have : (k - counter).toNat = (k - (counter + 1)).toNat + 1 := by omega
              omega
            · intro x hx
              rcases hmem x hx with h1 | h1
              · rcases List.mem_append.1 h1 with h2 | h2
                · exact Or.inl h2
                · rw [List.mem_singleton] at h2
                  exact Or.inr (h2 ▸ hnn)
              · exact Or.inr h1
          · exact ih _ _ _ _ _ _ h
    · injection h with h
      injection h with h1 h2
      subst h1
      refine ⟨?_, fun x hx => Or.inl hx⟩
      have : (k - counter).toNat = 0 := by omega
      omega

theorem nextKey_ok (chunk_size k : Int) (v : List Int) (i count_across : Int)
    (readset_ writeset_ : StdSet) (draws : List Nat) (key : Key) (count_across1 : Int)
    (rest : List Nat)
    (h : RMW.nextKey chunk_size k v i count_across readset_ writeset_ draws
      = Except.ok (key, count_across1, rest)) :
    key ∉ readset_ ∧ key ∉ writeset_ ∧
    ∃ index, index ∈ v ∧ ∃ r : Nat, RMW.chunkKey chunk_size index (r : Int) = Except.ok key := by
  have fresh : ∀ key : Key,
      (fun key => decide (readset_.count key ≠ 0) || decide (writeset_.count key ≠ 0)) key
        = false → key ∉ readset_ ∧ key ∉ writeset_ := by
    intro key hf
    rw [← StdSet.count_eq_zero, ← StdSet.count_eq_zero]
    simpa using hf
  unfold RMW.nextKey at h
  split_ifs at h with hlt
  · split at h
    · exact absurd h (by simp)
    · rename_i index hindex
      split at h
      · exact absurd h (by simp)
      · rename_i key1 rest1 hd
        injection h with h
        injection h with h1 h2
        subst h1
        obtain ⟨hfree, r, hr⟩ := doWhile_ok _ _ _ _ _ hd
        exact ⟨(fresh _ hfree).1, (fresh _ hfree).2, index, vectorAt_mem _ _ _ hindex, r, hr⟩
  · split at h
    · exact absurd h (by simp)
    · split at h
      · exact absurd h (by simp)
      · split at h
        · exact absurd h (by simp)
        · rename_i index hindex
          split at h
          · exact absurd h (by simp)
          · rename_i key1 rest1 hd
            injection h with h
            injection h with h1 h2
            subst h1
            obtain ⟨hfree, r, hr⟩ := doWhile_ok _ _ _ _ _ hd
            exact ⟨(fresh _ hfree).1, (fresh _ hfree).2, index, vectorAt_mem _ _ _ hindex, r, hr⟩

theorem partitionWrites_ok (chunk_size k : Int) (v : List Int) (readset_ : StdSet) :
    ∀ (n : Nat) (i count_across : Int) (writeset_ : StdSet) (draws : List Nat)
      (out : StdSet) (count_across1 : Int) (rest : List Nat),
      RMW.partitionWrites chunk_size k v readset_ n i count_across writeset_ draws
        = Except.ok (out, count_across1, rest) →
      out.size = writeset_.size + n ∧
      ∀ key, key ∈ out → key ∈ writeset_ ∨ (key ∉ readset_ ∧
        ∃ index, index ∈ v ∧
          ∃ r : Nat, RMW.chunkKey chunk_size index (r : Int) = Except.ok key) := by
  intro n
  induction n with
  | zero =>
    intro i count_across writeset_ draws out count_across1 rest h
    simp only [RMW.partitionWrites] at h
    injection h with h
    injection h with h1 h2
    subst h1
    exact ⟨rfl, fun key hk => Or.inl hk⟩
  | succ n ih =>
    intro i count_across writeset_ draws out count_across1 rest h
    simp only [RMW.partitionWrites] at h
    split at h
    · exact absurd h (by simp)
    · rename_i key ca rest1 hn
      obtain ⟨hnr, hnw, hidx⟩ := nextKey_ok _ _ _ _ _ _ _ _ _ _ _ hn
      obtain ⟨hsize, hmem⟩ := ih _ _ _ _ _ _ _ h
      refine ⟨by rw [hsize, StdSet.size_insert _ _ hnw]; omega, ?_⟩
      intro a ha
      rcases hmem a ha with h1 | h1
      · rcases (StdSet.mem_insert _ _ _).1 h1 with rfl | h2
        · exact Or.inr ⟨hnr, hidx⟩
        · exact Or.inl h2
      · exact Or.inr h1

theorem partitionReads_ok (chunk_size k : Int) (v : List Int) (writeset_ : StdSet) :
    ∀ (n : Nat) (i count_across : Int) (readset_ : StdSet) (draws : List Nat)
      (out : StdSet) (count_across1 : Int) (rest : List Nat),
      RMW.partitionReads chunk_size k v writeset_ n i count_across readset_ draws
        = Except.ok (out, count_across1, rest) →
      out.size = readset_.size + n ∧
      ∀ key, key ∈ out → key ∈ readset_ ∨ (key ∉ writeset_ ∧
        ∃ index, index ∈ v ∧
          ∃ r : Nat, RMW.chunkKey chunk_size index (r : Int) = Except.ok key) := by
  intro n
  induction n with
  | zero =>
    intro i count_across readset_ draws out count_across1 rest h
    simp only [RMW.partitionReads] at h
    injection h with h
    injection h with h1 h2
    subst h1
    exact ⟨rfl, fun key hk => Or.inl hk⟩
  | succ n ih =>
    intro i count_across readset_ draws out count_across1 rest h
    simp only [RMW.partitionReads] at h
    split at h
    · exact absurd h (by simp)
    · rename_i key ca rest1 hn
      obtain ⟨hnr, hnw, hidx⟩ := nextKey_ok _ _ _ _ _ _ _ _ _ _ _ hn
      obtain ⟨hsize, hmem⟩ := ih _ _ _ _ _ _ _ h
      refine ⟨by rw [hsize, StdSet.size_insert _ _ hnr]; omega, ?_⟩
      intro a ha
      rcases hmem a ha with h1 | h1
      · rcases (StdSet.mem_insert _ _ _).1 h1 with rfl | h2
        · exact Or.inr ⟨hnw, hidx⟩
        · exact Or.inl h2
      · exact Or.inr h1

/-- What a completed call of the partition constructor went through: the
chunk size, the selected vector `v`, and the two loops with their results. -/
theorem acrossPartitions_ok (dbsize readsetsize writesetsize k thread_count : Int)
    (time : Double) (draws rest : List Nat) (t : RMW)
    (hrun : RMW.acrossPartitions dbsize readsetsize writesetsize k thread_count time draws
      = Except.ok (t, rest)) :
    ∃ (chunk_size : Int) (v : List Int) (partitions : StdSet) (draws1 draws2 : List Nat)
      (count_across count_across1 : Int),
      dbsize ≥ readsetsize + writesetsize ∧
      cdiv dbsize thread_count = Except.ok chunk_size ∧
      RMW.selectPartitions dbsize chunk_size (RMW.clampK k thread_count) StdSet.empty [] 0 draws
        = Except.ok (v, partitions, draws1) ∧
      RMW.partitionWrites chunk_size (RMW.clampK k thread_count) v StdSet.empty
        writesetsize.toNat 0 0 StdSet.empty draws1
        = Except.ok (t.writeset_, count_across, draws2) ∧
      RMW.partitionReads chunk_size (RMW.clampK k thread_count) v t.writeset_
        readsetsize.toNat 0 count_across StdSet.empty draws2
        = Except.ok (t.readset_, count_across1, rest) ∧
      t.status_ = Outcome.pending ∧ t.time_ = time := by
  unfold RMW.acrossPartitions at hrun
  dsimp only at hrun
  split at hrun
  · exact absurd hrun (by simp)
  · rename_i u hd
    have hdc : dbsize ≥ readsetsize + writesetsize := by
      unfold DCHECK at hd
      split_ifs at hd with hc
      simpa using hc
    split at hrun
    · exact absurd hrun (by simp)
    · rename_i chunk_size hchunk
      split at hrun
      · exact absurd hrun (by simp)
      · rename_i v partitions draws1 hsel
        split at hrun
        · exact absurd hrun (by simp)
        · rename_i ws ca draws2 hwrites
          split at hrun
          · exact absurd hrun (by simp)
          · rename_i rs ca1 draws3 hreads
            injection hrun with hrun
            injection hrun with ht hrest
            subst ht
            subst hrest
            exact ⟨chunk_size, v, partitions, draws1, draws2, ca, ca1, hdc, hchunk, hsel,
              hwrites, hreads, rfl, rfl⟩

theorem clampK_eq_min (k thread_count : Int) : RMW.clampK k thread_count = min k thread_count := by
  unfold RMW.clampK
  split_ifs with h
  · exact (min_eq_right (le_of_lt h)).symm
  · exact (min_eq_left (not_lt.1 h)).symm

/-- Every key of a completed partition constructor lies in the chunk of some
entry of the selected vector, and the entries are not negative. -/
theorem acrossPartitions_keys (dbsize readsetsize writesetsize k thread_count : Int)
    (time : Double) (draws rest : List Nat) (t : RMW)
    (h1 : 1 ≤ thread_count) (h2 : thread_count ≤ dbsize)
    (hrun : RMW.acrossPartitions dbsize readsetsize writesetsize k thread_count time draws
      = Except.ok (t, rest)) :
    ∃ (v : List Int) (partitions : StdSet) (draws1 : List Nat),
      RMW.selectPartitions dbsize (Int.tdiv dbsize thread_count) (RMW.clampK k thread_count)
        StdSet.empty [] 0 draws = Except.ok (v, partitions, draws1) ∧
      v.length = (RMW.clampK k thread_count).toNat ∧
      (∀ p, p ∈ v → 0 ≤ p) ∧
      ∀ key, key ∈ t.readset_ ∨ key ∈ t.writeset_ →
        ∃ p, p ∈ v ∧ p * Int.tdiv dbsize thread_count ≤ key ∧
          key < (p + 1) * Int.tdiv dbsize thread_count := by
  obtain ⟨chunk_size, v, partitions, draws1, draws2, ca, ca1, -, hchunk, hsel, hwrites, hreads,
    -, -⟩ := acrossPartitions_ok _ _ _ _ _ _ _ _ _ hrun
  obtain ⟨hce, hcpos⟩ := chunk_size_pos _ _ _ h1 h2 hchunk
  subst hce
  obtain ⟨hlen, hnn⟩ := selectPartitions_ok dbsize _ _ (by omega) (by omega) _ _ _ _ _ _ _ hsel
  obtain ⟨-, hw⟩ := partitionWrites_ok _ _ _ _ _ _ _ _ _ _ _ _ hwrites
  obtain ⟨-, hr⟩ := partitionReads_ok _ _ _ _ _ _ _ _ _ _ _ _ hreads
  refine ⟨v, partitions, draws1, hsel, by simpa using hlen, ?_, ?_⟩
  · intro p hp
    exact (hnn p hp).resolve_left (by simp)
  · intro key hkey
    have hidx : ∃ index, index ∈ v ∧ ∃ r : Nat,
        RMW.chunkKey (Int.tdiv dbsize thread_count) index (r : Int) = Except.ok key := by
      rcases hkey with hk | hk
      · exact ((hr key hk).resolve_left (StdSet.not_mem_empty key)).2
      · exact ((hw key hk).resolve_left (StdSet.not_mem_empty key)).2
    obtain ⟨index, hiv, r, hck⟩ := hidx
    exact ⟨index, hiv, chunkKey_range _ _ _ _ (by omega) hck⟩

/-- C3: when the partition constructor completes on a list of draws, with
`1 <= thread_count <= dbsize`, `k >= 1` and both sizes non-negative, the
Writeset has `writesetsize` keys, the Readset has `readsetsize` keys, and the
two sets are disjoint. -/
theorem RMW_acrossPartitions_sizes (dbsize readsetsize writesetsize k thread_count : Int)
    (time : Double) (draws rest : List Nat) (t : RMW)
    (_h1 : 1 ≤ thread_count) (_h2 : thread_count ≤ dbsize) (_hk : 1 ≤ k)
    (hr : 0 ≤ readsetsize) (hw : 0 ≤ writesetsize)
    (hrun : RMW.acrossPartitions dbsize readsetsize writesetsize k thread_count time draws
      = Except.ok (t, rest)) :
    (t.writeset_.size : Int) = writesetsize ∧
    (t.readset_.size : Int) = readsetsize ∧
    (∀ key, key ∈ t.readset_ → key ∉ t.writeset_) := by
  obtain ⟨chunk_size, v, partitions, draws1, draws2, ca, ca1, -, -, -, hwrites, hreads,
    -, -⟩ := acrossPartitions_ok _ _ _ _ _ _ _ _ _ hrun
  obtain ⟨hwsize, -⟩ := partitionWrites_ok _ _ _ _ _ _ _ _ _ _ _ _ hwrites
  obtain ⟨hrsize, hrmem⟩ := partitionReads_ok _ _ _ _ _ _ _ _ _ _ _ _ hreads
  refine ⟨?_, ?_, ?_⟩
  · rw [hwsize]
    simp only [StdSet.size, StdSet.empty, List.length_nil, zero_add]
    exact Int.toNat_of_nonneg hw
  · rw [hrsize]
    simp only [StdSet.size, StdSet.empty, List.length_nil, zero_add]
    exact Int.toNat_of_nonneg hr
  · intro key hk
    exact ((hrmem key hk).resolve_left (StdSet.not_mem_empty key)).1

/-- Witness for C3: `RMW(100, 2, 3, 2, 10)` on the draws 5, 15, 3, 7, 1, 4, 0, 8,
1, 9 selects the partitions 0 and 1 and completes with Writeset {3, 14, 17} and
Readset {8, 19}. -/
theorem RMW_acrossPartitions_sizes_witness :
    RMW.acrossPartitions 100 2 3 2 10 ⟨0⟩ [5, 15, 3, 7, 1, 4, 0, 8, 1, 9]
      = Except.ok (exampleAcross, []) ∧
    ((exampleAcross.writeset_.size : Int) = 3 ∧
     (exampleAcross.readset_.size : Int) = 2 ∧
     (∀ key, key ∈ exampleAcross.readset_ → key ∉ exampleAcross.writeset_)) :=
  ⟨rfl,
   RMW_acrossPartitions_sizes 100 2 3 2 10 ⟨0⟩ [5, 15, 3, 7, 1, 4, 0, 8, 1, 9] []
     exampleAcross (by decide) (by decide) (by decide) (by decide) (by decide) rfl⟩

/-- C4: when the partition constructor completes on a list of draws, with
`1 <= thread_count <= dbsize` and `k >= 1`, every key of the Readset or the
Writeset lies in `[p * chunk_size, (p + 1) * chunk_size)` for an entry `p` of
the selected vector `v` (`chunk_size = dbsize / thread_count`), and the number
of distinct partitions that the two sets touch is at most
`min(k, thread_count)`. -/
theorem RMW_acrossPartitions_chunks (dbsize readsetsize writesetsize k thread_count : Int)
    (time : Double) (draws rest : List Nat) (t : RMW)
    (h1 : 1 ≤ thread_count) (h2 : thread_count ≤ dbsize) (hk : 1 ≤ k)
    (hrun : RMW.acrossPartitions dbsize readsetsize writesetsize k thread_count time draws
      = Except.ok (t, rest)) :
    ∃ (v : List Int) (partitions : StdSet) (draws1 : List Nat),
      RMW.selectPartitions dbsize (Int.tdiv dbsize thread_count) (RMW.clampK k thread_count)
        StdSet.empty [] 0 draws = Except.ok (v, partitions, draws1) ∧
      (∀ key, key ∈ t.readset_ ∨ key ∈ t.writeset_ →
        ∃ p, p ∈ v ∧ p * Int.tdiv dbsize thread_count ≤ key ∧
          key < (p + 1) * Int.tdiv dbsize thread_count) ∧
      ((touched (Int.tdiv dbsize thread_count) t.toTxn).card : Int) ≤ min k thread_count := by
  obtain ⟨v, partitions, draws1, hsel, hlen, hnn, hkeys⟩ :=
    acrossPartitions_keys _ _ _ _ _ _ _ _ _ h1 h2 hrun
  refine ⟨v, partitions, draws1, hsel, hkeys, ?_⟩
  have hcpos : 0 < Int.tdiv dbsize thread_count := by
    rw [Int.tdiv_eq_ediv (by omega) (by omega)]
    exact Int.le_ediv_of_mul_le (by omega) (by omega)
  have hsub : touched (Int.tdiv dbsize thread_count) t.toTxn ⊆ v.toFinset := by
    intro x hx
    unfold touched at hx
    rw [List.mem_toFinset, List.mem_map] at hx
    obtain ⟨key, hkey, rfl⟩ := hx
    rw [List.mem_append] at hkey
    obtain ⟨p, hp, hlo, hhi⟩ := hkeys key hkey
    rw [partitionOf_chunk _ p key hcpos (hnn p hp) hlo hhi]
    exact List.mem_toFinset.2 hp
  have hcard : (touched (Int.tdiv dbsize thread_count) t.toTxn).card ≤ v.length :=
    le_trans (Finset.card_le_card hsub) (List.toFinset_card_le v)
  rw [hlen] at hcard
  rw [← clampK_eq_min]
  have hpos : 0 ≤ RMW.clampK k thread_count := by
    rw [clampK_eq_min]; exact le_min (by omega) (by omega)
  have := Int.toNat_of_nonneg hpos
  omega

/-- Witness for C4: `RMW(100, 2, 3, 2, 10)` on the draws 5, 15, 3, 7, 1, 4, 0, 8,
1, 9 completes; the selected vector is `[0, 1]` and the five keys 3, 14, 17, 8,
19 lie in the chunks `[0, 10)` and `[10, 20)`. -/
theorem RMW_acrossPartitions_chunks_witness :
    RMW.acrossPartitions 100 2 3 2 10 ⟨0⟩ [5, 15, 3, 7, 1, 4, 0, 8, 1, 9]
      = Except.ok (exampleAcross, []) ∧
    ∃ (v : List Int) (partitions : StdSet) (draws1 : List Nat),
      RMW.selectPartitions 100 (Int.tdiv 100 10) (RMW.clampK 2 10)
        StdSet.empty [] 0 [5, 15, 3, 7, 1, 4, 0, 8, 1, 9]
        = Except.ok (v, partitions, draws1) ∧
      (∀ key, key ∈ exampleAcross.readset_ ∨ key ∈ exampleAcross.writeset_ →
        ∃ p, p ∈ v ∧ p * Int.tdiv 100 10 ≤ key ∧ key < (p + 1) * Int.tdiv 100 10) ∧
      ((touched (Int.tdiv 100 10) exampleAcross.toTxn).card : Int) ≤ min 2 10 :=
  ⟨rfl,
   RMW_acrossPartitions_chunks 100 2 3 2 10 ⟨0⟩ [5, 15, 3, 7, 1, 4, 0, 8, 1, 9] []
     exampleAcross (by decide) (by decide) (by decide) rfl⟩

theorem nextKey_cover (chunk_size k : Int) (v : List Int) (i count_across : Int)
    (readset_ writeset_ : StdSet) (draws : List Nat) (key : Key) (count_across1 : Int)
    (rest : List Nat) (hlt : count_across < k)
    (h : RMW.nextKey chunk_size k v i count_across readset_ writeset_ draws
      = Except.ok (key, count_across1, rest)) :
    count_across1 = count_across + 1 ∧
    ∃ index, vectorAt v i = Except.ok index ∧
      ∃ r : Nat, RMW.chunkKey chunk_size index (r : Int) = Except.ok key := by
  unfold RMW.nextKey at h
  rw [if_pos hlt] at h
  split at h
  · exact absurd h (by simp)
  · rename_i index hindex
    split at h
    · exact absurd h (by simp)
    · rename_i key1 rest1 hd
      injection h with h
      injection h with h1 h2
      injection h2 with h2 h3
      subst h1
      obtain ⟨-, r, hr⟩ := doWhile_ok _ _ _ _ _ hd
      exact ⟨h2.symm, index, hindex, r, hr⟩

/-- With one write key and one read key and at least two requested
partitions, the read loop is still in its coverage branch and takes
`v.at(0)`, the partition that the write already covered: every completed
call of the partition constructor leaves both keys in one partition. -/
theorem acrossPartitions_one_write_one_read (dbsize k thread_count : Int)
    (time : Double) (draws rest : List Nat) (t : RMW)
    (h2 : 2 ≤ thread_count) (h3 : thread_count ≤ dbsize) (hk : 2 ≤ k)
    (hrun : RMW.acrossPartitions dbsize 1 1 k thread_count time draws = Except.ok (t, rest)) :
    (touched (Int.tdiv dbsize thread_count) t.toTxn).card = 1 := by
  obtain ⟨chunk_size, v, partitions, draws1, draws2, ca, ca1, -, hchunk, hsel, hwrites, hreads,
    -, -⟩ := acrossPartitions_ok _ _ _ _ _ _ _ _ _ hrun
  obtain ⟨hce, hcpos⟩ := chunk_size_pos _ _ _ (by omega) h3 hchunk
  subst hce
  obtain ⟨-, hnn⟩ := selectPartitions_ok dbsize _ _ (by omega) (by omega) _ _ _ _ _ _ _ hsel
  have hclamp : 2 ≤ RMW.clampK k thread_count := by
    rw [clampK_eq_min]; exact le_min hk h2
  have e1 : (1 : Int).toNat = 0 + 1 := rfl
  -- the write loop: one iteration in the coverage branch
  rw [e1] at hwrites
  simp only [RMW.partitionWrites] at hwrites
  split at hwrites
  · exact absurd hwrites (by simp)
  · rename_i wkey wca wrest hwn
    obtain ⟨hwca, windex, hwat, wr, hwr⟩ :=
      nextKey_cover _ _ _ _ _ _ _ _ _ _ _ (by omega) hwn
    injection hwrites with hwrites
    injection hwrites with hws hwrites
    injection hwrites with hca hrest
    -- the read loop: one iteration, again in the coverage branch, again at `v.at(0)`
    rw [e1] at hreads
    simp only [RMW.partitionReads] at hreads
    split at hreads
    · exact absurd hreads (by simp)
    · rename_i rkey rca rrest hrn
      obtain ⟨-, rindex, hrat, rr, hrr⟩ :=
        nextKey_cover _ _ _ _ _ _ _ _ _ _ _ (by omega) hrn
      injection hreads with hreads
      injection hreads with hrs hreads
      have hsame : rindex = windex := by
        rw [hwat] at hrat
        injection hrat with hrat
        exact hrat.symm
      subst hsame
      have hidx : 0 ≤ rindex := (hnn rindex (vectorAt_mem _ _ _ hwat)).resolve_left (by simp)
      obtain ⟨wlo, whi⟩ := chunkKey_range _ _ _ _ (by omega) hwr
      obtain ⟨rlo, rhi⟩ := chunkKey_range _ _ _ _ (by omega) hrr
      have hpw := partitionOf_chunk _ rindex wkey (by omega) hidx wlo whi
      have hpr := partitionOf_chunk _ rindex rkey (by omega) hidx rlo rhi
      unfold touched
      rw [← hrs, ← hws]
      simp [StdSet.insert, StdSet.empty, insertKey, hpw, hpr]

/-- C2, at the input where the code departs from it: `RMW(100, 1, 1, 2, 10)`
on the draws 5, 15, 3, 7 selects the partitions 0 and 1 and completes with
Writeset {3} and Readset {7}; both keys lie in partition 0, so the sets touch
one partition, although `readsetsize + writesetsize = 2 >= k` and
`min(k, thread_count) = 2`. -/
theorem RMW_acrossPartitions_read_repeats_partition :
    RMW.acrossPartitions 100 1 1 2 10 ⟨0⟩ [5, 15, 3, 7] = Except.ok (exampleRepeated, []) ∧
    RMW.selectPartitions 100 (Int.tdiv 100 10) (RMW.clampK 2 10) StdSet.empty [] 0
      [5, 15, 3, 7] = Except.ok ([0, 1], ⟨[0, 1], by decide⟩, [3, 7]) ∧
    exampleRepeated.writeset_.keys = [3] ∧ exampleRepeated.readset_.keys = [7] ∧
    touched (Int.tdiv 100 10) exampleRepeated.toTxn = {0} ∧
    ((touched (Int.tdiv 100 10) exampleRepeated.toTxn).card : Int) ≠ min 2 10 :=
  ⟨rfl, rfl, rfl, rfl, by decide, by decide⟩

/-- C5, at the input where the code departs from it: `RMW(5, 0, 1, 1, 2)` has
`chunk_size = 2`; on the draws 4, 1 the selected partition index is
`4 / 2 = 2`, which is not below `thread_count = 2`, and the constructor
completes with Writeset {5}: the key 5 is not below
`thread_count * chunk_size = 4` and not below `dbsize = 5`. -/
theorem RMW_acrossPartitions_key_beyond_dbsize :
    RMW.acrossPartitions 5 0 1 1 2 ⟨0⟩ [4, 1] = Except.ok (exampleBeyond, []) ∧
    RMW.selectPartitions 5 (Int.tdiv 5 2) (RMW.clampK 1 2) StdSet.empty [] 0 [4, 1]
      = Except.ok ([2], ⟨[2], by decide⟩, [1]) ∧
    ¬ ((2 : Int) < 2) ∧
    (5 : Key) ∈ exampleBeyond.writeset_ ∧
    ¬ ((5 : Int) < 2 * Int.tdiv 5 2) ∧ ¬ ((5 : Int) < 5) :=
  ⟨rfl, rfl, by decide, by decide, by decide, by decide⟩

/-! ## Declared sets of Noop, Expect and Put -/

theorem insertKey_append (key : Key) (l : List Key) (h : ∀ x, x ∈ l → x < key) :
    insertKey key l = l ++ [key] := by
  induction l with
  | nil => simp [insertKey]
  | cons x xs ih =>
    have hx : x < key := h x (List.mem_cons_self x xs)
    unfold insertKey
    rw [if_neg (not_lt.2 (le_of_lt hx)), if_neg (ne_of_gt hx),
      ih (fun y hy => h y (List.mem_cons_of_mem x hy))]
    rfl

theorem foldl_insert_keys :
    ∀ (l : List Key) (acc : StdSet), (acc.keys ++ l).Pairwise (· < ·) →
      (l.foldl (fun s key => s.insert key) acc).keys = acc.keys ++ l := by
  intro l
  induction l with
  | nil => intro acc _; simp
  | cons a l ih =>
    intro acc h
    have ha : ∀ x, x ∈ acc.keys → x < a := by
      intro x hx
      exact (List.pairwise_append.1 h).2.2 x hx a (List.mem_cons_self a l)
    have hk : (acc.insert a).keys = acc.keys ++ [a] := insertKey_append a acc.keys ha
    rw [List.foldl_cons, ih (acc.insert a) (by rw [hk]; simpa using h), hk]
    simp

theorem foldl_insert_fst {V : Type} (m : StdMap V) :
    (m.entries.foldl (fun s it => StdSet.insert s it.1) StdSet.empty).keys = m.domain := by
  have h := foldl_insert_keys (m.entries.map Prod.fst) StdSet.empty
    (by simpa [StdSet.empty] using m.ascending)
  rw [List.foldl_map] at h
  simpa [StdSet.empty, StdMap.domain] using h

theorem declared_sets_of_expect {V : Type} (m : StdMap V) :
    (Expect.ofMap m).readset_.keys = m.domain ∧ (Expect.ofMap m).writeset_.keys = [] :=
  ⟨foldl_insert_fst m, rfl⟩

theorem declared_sets_of_put {V : Type} (m : StdMap V) :
    (Put.ofMap m).writeset_.keys = m.domain ∧ (Put.ofMap m).readset_.keys = [] :=
  ⟨foldl_insert_fst m, rfl⟩

/-- C10: for every mapping `m`, `Expect(m)` has the key domain of `m` as its
Readset and an empty Writeset, `Put(m)` has the key domain of `m` as its
Writeset and an empty Readset, and `Noop()` has both sets empty. -/
theorem declared_sets_of_simple_variants {V : Type} (m : StdMap V) :
    ((Expect.ofMap m).readset_.keys = m.domain ∧ (Expect.ofMap m).writeset_.keys = []) ∧
    ((Put.ofMap m).writeset_.keys = m.domain ∧ (Put.ofMap m).readset_.keys = []) ∧
    (Noop.new.readset_.keys = [] ∧ Noop.new.writeset_.keys = []) :=
  ⟨declared_sets_of_expect m, declared_sets_of_put m, ⟨rfl, rfl⟩⟩

/-! ## Expect::Run and Put::Run -/

theorem Read_store {V : Type} (c : Context V) (key : Key) : (Read c key).2.store = c.store :=
  rfl

theorem Read_fst {V : Type} (c : Context V) (key : Key) : (Read c key).1 = c.store key :=
  rfl

theorem Expect_RunLoop_iff {V : Type} [DecidableEq V] :
    ∀ (entries : List (Key × V)) (c : Context V),
      (Expect.RunLoop entries c).1 = false ↔
        ∀ key value, (key, value) ∈ entries → c.store key = some value := by
  intro entries
  induction entries with
  | nil => intro c; simp [Expect.RunLoop]
  | cons it rest ih =>
    intro c
    obtain ⟨k, v⟩ := it
    unfold Expect.RunLoop
    split
    · rename_i c1 hread
      have h0 : c.store k = none := by
        have := congrArg Prod.fst hread
        simpa [Read] using this
      constructor
      · intro h; exact absurd h (by simp)
      · intro h
        have := h k v (List.mem_cons_self _ _)
        rw [h0] at this
        exact absurd this (by simp)
    · rename_i result c1 hread
      have h0 : c.store k = some result := by
        have := congrArg Prod.fst hread
        simpa [Read] using this
      have h1 : c1.store = c.store := by
        have h2 : (Read c (k, v).1).2 = c1 := congrArg Prod.snd hread
        rw [← h2]
        rfl
      split_ifs with hne
      · constructor
        · intro h; exact absurd h (by simp)
        · intro h
          have := h k v (List.mem_cons_self _ _)
          rw [h0] at this
          injection this with this
          exact absurd this hne
      · have hrv : result = v := by simpa using hne
        rw [ih c1, h1]
        constructor
        · intro h key value hm
          rcases List.mem_cons.1 hm with heq | hm
          · injection heq with e1 e2
            rw [e1, e2, h0, hrv]
          · exact h key value hm
        · intro h key value hm
          exact h key value (List.mem_cons_of_mem _ hm)

theorem Expect_Run_status {V : Type} [DecidableEq V] (t : Expect V) (c : Context V) :
    ((Expect.RunLoop t.m_.entries c).1 = false → (t.Run c).1.status_ = Outcome.committed) ∧
    ((Expect.RunLoop t.m_.entries c).1 = true → (t.Run c).1.status_ = Outcome.aborted) := by
  unfold Expect.Run
  split
  · rename_i c1 h
    rw [h]
    exact ⟨fun h => absurd h (by simp), fun _ => rfl⟩
  · rename_i c1 h
    rw [h]
    exact ⟨fun _ => rfl, fun h => absurd h (by simp)⟩

/-- C7: for every mapping `m` and every store, `Expect::Run` ends committed
if and only if `Read(key)` reports `value` as found for every `(key, value)`
of `m`; when some key of `m` is missing or holds another value, it ends
aborted and not committed.  `Expect({5: 10, 7: 20})` against a store with
5 -> 10 and 7 -> 99 aborts. -/
theorem Expect_Run_outcome {V : Type} [DecidableEq V] (m : StdMap V) (c : Context V) :
    (((Expect.ofMap m).Run c).1.status_ = Outcome.committed ↔
      ∀ key value, (key, value) ∈ m.entries → (Read c key).1 = some value) ∧
    ((∃ key value, (key, value) ∈ m.entries ∧ (Read c key).1 ≠ some value) →
      ((Expect.ofMap m).Run c).1.status_ = Outcome.aborted ∧
      ((Expect.ofMap m).Run c).1.status_ ≠ Outcome.committed) ∧
    ((Expect.ofMap (⟨[(5, 10), (7, 20)], by decide⟩ : StdMap Nat)).Run
        (Context.start (fun key => if key = 5 then some 10 else
          if key = 7 then some 99 else none))).1.status_ = Outcome.aborted := by
  have hs := Expect_Run_status (Expect.ofMap m) c
  have hl := Expect_RunLoop_iff m.entries c
  have hm : (Expect.ofMap m).m_ = m := rfl
  rw [hm] at hs
  simp only [Read_fst]
  refine ⟨?_, ?_, by decide⟩
  · constructor
    · intro hc
      cases hb : (Expect.RunLoop m.entries c).1
      · exact hl.1 hb
      · rw [hs.2 hb] at hc
        exact absurd hc (by decide)
    · intro h
      exact hs.1 (hl.2 h)
  · rintro ⟨key, value, hmem, hne⟩
    have hb : (Expect.RunLoop m.entries c).1 = true := by
      cases hb : (Expect.RunLoop m.entries c).1
      · exact absurd (hl.1 hb key value hmem) hne
      · rfl
    rw [hs.2 hb]
    exact ⟨rfl, by decide⟩

theorem readKeys_append {V : Type} (a b : List (Access V)) :
    readKeys (a ++ b) = readKeys a ++ readKeys b := by
  induction a with
  | nil => rfl
  | cons x xs ih => cases x <;> simp [readKeys, ih]

theorem writeCalls_append {V : Type} (a b : List (Access V)) :
    writeCalls (a ++ b) = writeCalls a ++ writeCalls b := by
  induction a with
  | nil => rfl
  | cons x xs ih => cases x <;> simp [writeCalls, ih]

theorem foldl_Write_log {V : Type} :
    ∀ (entries : List (Key × V)) (c : Context V),
      (entries.foldl (fun c it => Write c it.1 it.2) c).log
        = c.log ++ entries.map (fun it => Access.write it.1 it.2) := by
  intro entries
  induction entries with
  | nil => intro c; simp
  | cons it rest ih => intro c; rw [List.foldl_cons, ih]; simp [Write]

theorem foldl_Write_store_of_not_mem {V : Type} :
    ∀ (entries : List (Key × V)) (c : Context V) (key : Key),
      key ∉ entries.map Prod.fst →
      (entries.foldl (fun c it => Write c it.1 it.2) c).store key = c.store key := by
  intro entries
  induction entries with
  | nil => intro c key _; rfl
  | cons it rest ih =>
    intro c key h
    rw [List.map_cons, List.mem_cons, not_or] at h
    rw [List.foldl_cons, ih _ key h.2]
    simp [Write, h.1]

theorem foldl_Write_store_of_mem {V : Type} :
    ∀ (entries : List (Key × V)) (c : Context V),
      (entries.map Prod.fst).Pairwise (· < ·) →
      ∀ key value, (key, value) ∈ entries →
        (entries.foldl (fun c it => Write c it.1 it.2) c).store key = some value := by
  intro entries
  induction entries with
  | nil => intro c _ key value h; simp at h
  | cons it rest ih =>
    intro c hp key value h
    rw [List.map_cons, List.pairwise_cons] at hp
    rw [List.foldl_cons]
    rcases List.mem_cons.1 h with heq | hmem
    · subst heq
      have hnot : key ∉ rest.map Prod.fst := fun hin => lt_irrefl _ (hp.1 key hin)
      rw [foldl_Write_store_of_not_mem rest _ key hnot]
      simp [Write]
    · exact ih _ hp.2 key value hmem

/-- C8: for every mapping `m` and every context, `Put::Run` ends committed,
a `Read(key)` that follows it reports `value` as found for every
`(key, value)` of `m`, and the calls it makes are exactly one `Write` for
every entry of `m`: no `Read`, and no path to an abort. -/
theorem Put_Run_effect {V : Type} (m : StdMap V) (c : Context V) :
    ((Put.ofMap m).Run c).1.status_ = Outcome.committed ∧
    (∀ key value, (key, value) ∈ m.entries →
      (Read ((Put.ofMap m).Run c).2 key).1 = some value) ∧
    ((Put.ofMap m).Run c).2.log = c.log ++ m.entries.map (fun it => Access.write it.1 it.2) ∧
    readKeys ((Put.ofMap m).Run c).2.log = readKeys c.log := by
  have hlog : ((Put.ofMap m).Run c).2.log
      = c.log ++ m.entries.map (fun it => Access.write it.1 it.2) :=
    foldl_Write_log m.entries c
  refine ⟨rfl, ?_, hlog, ?_⟩
  · intro key value h
    exact foldl_Write_store_of_mem m.entries c m.ascending key value h
  · rw [hlog, readKeys_append]
    have : ∀ l : List (Key × V), readKeys (l.map (fun it => Access.write it.1 it.2)) = [] := by
      intro l
      induction l with
      | nil => rfl
      | cons x xs ih => simpa [readKeys] using ih
    rw [this, List.append_nil]

/-! ## RMW::Run -/

theorem foldl_Read_eq {V : Type} :
    ∀ (keys : List Key) (c : Context V),
      keys.foldl (fun c key => (Read c key).2) c
        = { store := c.store, log := c.log ++ keys.map Access.read } := by
  intro keys
  induction keys with
  | nil => intro c; simp
  | cons key rest ih => intro c; rw [List.foldl_cons, ih]; simp [Read]

theorem incrementKey_eq {V : Type} [Zero V] [One V] [Add V] (c : Context V) (key : Key) :
    RMW.incrementKey c key =
      { store := fun k => if k = key then some ((c.store key).getD 0 + 1) else c.store k,
        log := c.log ++ [Access.read key, Access.write key ((c.store key).getD 0 + 1)] } := by
  unfold RMW.incrementKey
  cases h : c.store key <;> simp [Read, Write, h]

theorem foldl_incrementKey {V : Type} [Zero V] [One V] [Add V] :
    ∀ (keys : List Key) (c : Context V), keys.Pairwise (· < ·) →
      (∀ k, (keys.foldl RMW.incrementKey c).store k
        = if k ∈ keys then some ((c.store k).getD 0 + 1) else c.store k) ∧
      writeCalls (keys.foldl RMW.incrementKey c).log
        = writeCalls c.log ++ keys.map (fun key => (key, (c.store key).getD 0 + 1)) ∧
      readKeys (keys.foldl RMW.incrementKey c).log = readKeys c.log ++ keys := by
  intro keys
  induction keys with
  | nil => intro c _; simp
  | cons a rest ih =>
    intro c hp
    rw [List.pairwise_cons] at hp
    have hne : ∀ k, k ∈ rest → k ≠ a := fun k hk => ne_of_gt (hp.1 k hk)
    obtain ⟨hstore, hw, hr⟩ := ih (RMW.incrementKey c a) hp.2
    rw [List.foldl_cons]
    have hs1 : ∀ k, k ∈ rest → (RMW.incrementKey c a).store k = c.store k := by
      intro k hk
      rw [incrementKey_eq]
      simp [hne k hk]
    refine ⟨?_, ?_, ?_⟩
    · intro k
      rw [hstore k]
      by_cases hk : k ∈ rest
      · rw [if_pos hk, if_pos (List.mem_cons_of_mem a hk), hs1 k hk]
      · rw [if_neg hk]
        by_cases hka : k = a
        · subst hka
          rw [if_pos (List.mem_cons_self k rest), incrementKey_eq]
          simp
        · rw [if_neg (by simp [hka, hk]), incrementKey_eq]
          simp [hka]
    · rw [hw, List.map_cons, List.map_congr_left (fun k hk => by rw [hs1 k hk])]
      rw [incrementKey_eq]
      simp [writeCalls_append, writeCalls]
    · rw [hr, incrementKey_eq]
      simp [readKeys_append, readKeys]

/-- C6: for every RMW transaction and every context, `RMW::Run` ends
committed and not aborted; the `Write` calls it makes are exactly one for
every key of the Writeset, with the value the store held before `Run` (0
when the key was absent) plus 1; and after `Run` the store holds that value
at every key of the Writeset. -/
theorem RMW_Run_increments {V : Type} [Zero V] [One V] [Add V] (t : RMW) (c : Context V) :
    (t.Run c).1.status_ = Outcome.committed ∧
    (t.Run c).1.status_ ≠ Outcome.aborted ∧
    writeCalls (t.Run c).2.log
      = writeCalls c.log ++ t.writeset_.keys.map (fun key => (key, (c.store key).getD 0 + 1)) ∧
    (∀ key, key ∈ t.writeset_ → (t.Run c).2.store key = some ((c.store key).getD 0 + 1)) := by
  have hrun : (t.Run c).2 = t.writeset_.keys.foldl RMW.incrementKey
      { store := c.store, log := c.log ++ t.readset_.keys.map Access.read } := by
    unfold RMW.Run
    simp only [foldl_Read_eq]
  obtain ⟨hstore, hw, -⟩ := foldl_incrementKey t.writeset_.keys
    { store := c.store, log := c.log ++ t.readset_.keys.map Access.read } t.writeset_.ascending
  have hreads : ∀ l : List Key, writeCalls (l.map (Access.read : Key → Access V)) = [] := by
    intro l
    induction l with
    | nil => rfl
    | cons x xs ih => simpa [writeCalls] using ih
  refine ⟨rfl, by unfold RMW.Run; simp, ?_, ?_⟩
  · rw [hrun, hw, writeCalls_append, hreads, List.append_nil]
  · intro key hk
    rw [hrun, hstore key, if_pos ((StdSet.mem_iff _ _).1 hk)]

/-! ## Run stays within the declared sets -/

theorem Expect_Run_snd {V : Type} [DecidableEq V] (t : Expect V) (c : Context V) :
    (t.Run c).2 = (Expect.RunLoop t.m_.entries c).2 := by
  unfold Expect.Run
  split <;> (rename_i c1 h; rw [h])

theorem Expect_RunLoop_log {V : Type} [DecidableEq V] :
    ∀ (entries : List (Key × V)) (c : Context V),
      writeCalls (Expect.RunLoop entries c).2.log = writeCalls c.log ∧
      ∀ key, key ∈ readKeys (Expect.RunLoop entries c).2.log →
        key ∈ readKeys c.log ∨ key ∈ entries.map Prod.fst := by
  intro entries
  induction entries with
  | nil => intro c; exact ⟨rfl, fun key hk => Or.inl hk⟩
  | cons it rest ih =>
    intro c
    have hlog : (Read c it.1).2.log = c.log ++ [Access.read it.1] := rfl
    have hw1 : writeCalls (Read c it.1).2.log = writeCalls c.log := by
      rw [hlog, writeCalls_append]; simp [writeCalls]
    have hr1 : ∀ key, key ∈ readKeys (Read c it.1).2.log →
        key ∈ readKeys c.log ∨ key ∈ (it :: rest).map Prod.fst := by
      intro key hk
      rw [hlog, readKeys_append] at hk
      rcases List.mem_append.1 hk with h | h
      · exact Or.inl h
      · right
        simp only [readKeys, List.mem_singleton] at h
        simp [h]
    unfold Expect.RunLoop
    split
    · rename_i c1 hread
      have e : c1 = (Read c it.1).2 := (congrArg Prod.snd hread).symm
      subst e
      exact ⟨hw1, hr1⟩
    · rename_i result c1 hread
      have e : c1 = (Read c it.1).2 := (congrArg Prod.snd hread).symm
      subst e
      split_ifs with hne
      · exact ⟨hw1, hr1⟩
      · obtain ⟨hw, hr⟩ := ih (Read c it.1).2
        refine ⟨hw.trans hw1, ?_⟩
        intro key hk
        rcases hr key hk with h | h
        · exact hr1 key h
        · exact Or.inr (by simp only [List.map_cons, List.mem_cons]; exact Or.inr h)

theorem insertEntry_append {V : Type} (key : Key) (value : V) (l : List (Key × V))
    (h : ∀ x, x ∈ l.map Prod.fst → x < key) :
    insertEntry key value l = l ++ [(key, value)] := by
  induction l with
  | nil => simp [insertEntry]
  | cons x xs ih =>
    obtain ⟨x, y⟩ := x
    have hx : x < key := h x (by simp)
    unfold insertEntry
    rw [if_neg (not_lt.2 (le_of_lt hx)), if_neg (ne_of_gt hx),
      ih (fun z hz => h z (by simp only [List.map_cons, List.mem_cons]; exact Or.inr hz))]
    rfl

theorem foldl_insertEntry {V : Type} (value : V) :
    ∀ (l : List Key) (acc : StdMap V), (acc.domain ++ l).Pairwise (· < ·) →
      (l.foldl (fun m arg => m.insert arg value) acc).domain = acc.domain ++ l := by
  intro l
  induction l with
  | nil => intro acc _; simp
  | cons a l ih =>
    intro acc h
    have ha : ∀ x, x ∈ acc.entries.map Prod.fst → x < a := by
      intro x hx
      exact (List.pairwise_append.1 h).2.2 x hx a (List.mem_cons_self a l)
    have hk : (acc.insert a value).domain = acc.domain ++ [a] := by
      show (insertEntry a value acc.entries).map Prod.fst = acc.entries.map Prod.fst ++ [a]
      rw [insertEntry_append a value acc.entries ha]
      simp
    rw [List.foldl_cons, ih (acc.insert a value) (by rw [hk]; simpa using h), hk]
    simp

theorem Expect_ofSet_sets {V : Type} [One V] (s : StdSet) :
    (Expect.ofSet s : Expect V).readset_.keys = s.keys ∧
    (Expect.ofSet s : Expect V).m_.domain = s.keys := by
  constructor
  · have h := foldl_insert_keys s.keys StdSet.empty (by simpa [StdSet.empty] using s.ascending)
    simpa [StdSet.empty] using h
  · have h := foldl_insertEntry (1 : V) s.keys StdMap.empty
      (by simpa [StdMap.empty, StdMap.domain] using s.ascending)
    simpa [StdMap.empty, StdMap.domain] using h

theorem Expect_Run_within {V : Type} [DecidableEq V] (t : Expect V)
    (hdom : ∀ key, key ∈ t.m_.domain → key ∈ t.readset_) (store : Key → Option V) :
    (∀ key, key ∈ readKeys (t.Run (Context.start store)).2.log → key ∈ t.readset_) ∧
    writeCalls (t.Run (Context.start store)).2.log = [] := by
  obtain ⟨hw, hr⟩ := Expect_RunLoop_log t.m_.entries (Context.start store)
  rw [Expect_Run_snd]
  refine ⟨?_, hw⟩
  intro key hk
  rcases hr key hk with h | h
  · simp [Context.start, readKeys] at h
  · exact hdom key h

theorem RMW_Run_within {V : Type} [Zero V] [One V] [Add V] (t : RMW) (store : Key → Option V) :
    (∀ key, key ∈ readKeys (t.Run (Context.start store)).2.log →
      key ∈ t.readset_ ∨ key ∈ t.writeset_) ∧
    (∀ e, e ∈ writeCalls (t.Run (Context.start store)).2.log → e.1 ∈ t.writeset_) := by
  have hrun : (t.Run (Context.start store)).2 = t.writeset_.keys.foldl RMW.incrementKey
      { store := store, log := [] ++ t.readset_.keys.map Access.read } := by
    unfold RMW.Run
    simp only [foldl_Read_eq]
    rfl
  obtain ⟨-, hw, hr⟩ := foldl_incrementKey t.writeset_.keys
    { store := store, log := [] ++ t.readset_.keys.map Access.read } t.writeset_.ascending
  have hreadsW : ∀ l : List Key, writeCalls (l.map (Access.read : Key → Access V)) = [] := by
    intro l
    induction l with
    | nil => rfl
    | cons x xs ih => simpa [writeCalls] using ih
  have hreadsR : ∀ l : List Key, readKeys (l.map (Access.read : Key → Access V)) = l := by
    intro l
    induction l with
    | nil => rfl
    | cons x xs ih => simpa [readKeys] using ih
  rw [hrun, hw, hr]
  simp only [List.nil_append, hreadsW, hreadsR]
  constructor
  · intro key hk
    rcases List.mem_append.1 hk with h | h
    · exact Or.inl h
    · exact Or.inr h
  · intro e he
    rw [List.mem_map] at he
    obtain ⟨key, hkey, rfl⟩ := he
    exact hkey

/-- C9: for every instance that a constructor of `Noop`, `Expect`, `Put` or
`RMW` builds and every store, every key passed to `Read` during `Run` is in
the Readset or the Writeset of the instance, and every key passed to `Write`
during `Run` is in its Writeset. -/
theorem Run_within_declared_sets {V : Type} [DecidableEq V] [Zero V] [One V] [Add V]
    (a : AnyTxn V) (h : Constructed a) (store : Key → Option V) :
    (∀ key, key ∈ readKeys (a.Run (Context.start store)).2.log →
      key ∈ a.base.readset_ ∨ key ∈ a.base.writeset_) ∧
    (∀ e, e ∈ writeCalls (a.Run (Context.start store)).2.log → e.1 ∈ a.base.writeset_) := by
  cases h with
  | noop =>
    constructor
    · intro key hk
      simp [AnyTxn.Run, Noop.Run, Context.start, readKeys] at hk
    · intro e he
      simp [AnyTxn.Run, Noop.Run, Context.start, writeCalls] at he
  | expectOfMap m =>
    have hdom : ∀ key, key ∈ (Expect.ofMap m).m_.domain → key ∈ (Expect.ofMap m).readset_ := by
      intro key hk
      rw [StdSet.mem_iff, (declared_sets_of_expect m).1]
      exact hk
    obtain ⟨hr, hw⟩ := Expect_Run_within (Expect.ofMap m) hdom store
    constructor
    · intro key hk
      exact Or.inl (hr key hk)
    · intro e he
      simp only [AnyTxn.Run] at he
      rw [hw] at he
      simp at he
  | expectOfSet s =>
    have hdom : ∀ key, key ∈ (Expect.ofSet s : Expect V).m_.domain →
        key ∈ (Expect.ofSet s : Expect V).readset_ := by
      intro key hk
      rw [StdSet.mem_iff, (Expect_ofSet_sets s).1]
      rw [(Expect_ofSet_sets s).2] at hk
      exact hk
    obtain ⟨hr, hw⟩ := Expect_Run_within (Expect.ofSet s : Expect V) hdom store
    constructor
    · intro key hk
      exact Or.inl (hr key hk)
    · intro e he
      simp only [AnyTxn.Run] at he
      rw [hw] at he
      simp at he
  | putOfMap m =>
    have hlog : ((Put.ofMap m).Run (Context.start store)).2.log
        = [] ++ m.entries.map (fun it => Access.write it.1 it.2) :=
      foldl_Write_log m.entries (Context.start store)
    have hR : ∀ l : List (Key × V), readKeys (l.map (fun it => Access.write it.1 it.2)) = [] := by
      intro l
      induction l with
      | nil => rfl
      | cons x xs ih => simpa [readKeys] using ih
    have hW : ∀ l : List (Key × V), writeCalls (l.map (fun it => Access.write it.1 it.2)) = l := by
      intro l
      induction l with
      | nil => rfl
      | cons x xs ih => simpa [writeCalls] using ih
    constructor
    · intro key hk
      simp only [AnyTxn.Run] at hk
      rw [hlog, List.nil_append, hR] at hk
      simp at hk
    · intro e he
      simp only [AnyTxn.Run] at he
      rw [hlog, List.nil_append, hW] at he
      show e.1 ∈ (Put.ofMap m).writeset_
      rw [StdSet.mem_iff, (declared_sets_of_put m).1]
      exact List.mem_map_of_mem Prod.fst he
  | rmwOfTime time => exact RMW_Run_within (RMW.ofTime time) store
  | rmwOfWriteset writeset time => exact RMW_Run_within (RMW.ofWriteset writeset time) store
  | rmwOfSets readset writeset time => exact RMW_Run_within (RMW.ofSets readset writeset time) store
  | rmwRandomized dbsize readsetsize writesetsize time draws rest t h =>
    exact RMW_Run_within t store
  | rmwAcrossPartitions dbsize readsetsize writesetsize k thread_count time draws rest t h =>
    exact RMW_Run_within t store

/-- Witness for C9: the instance `RMW({1, 2}, {3})` is built by a constructor;
run against the empty store it reads the keys 1, 2, 3 and writes the key 3. -/
theorem Run_within_declared_sets_witness :
    Constructed exampleSets ∧
    readKeys (exampleSets.Run (Context.start (fun _ => none))).2.log = [1, 2, 3] ∧
    writeCalls (exampleSets.Run (Context.start (fun _ => none))).2.log = [(3, 1)] ∧
    ((∀ key, key ∈ readKeys (exampleSets.Run (Context.start (fun _ => none))).2.log →
      key ∈ exampleSets.base.readset_ ∨ key ∈ exampleSets.base.writeset_) ∧
     (∀ e, e ∈ writeCalls (exampleSets.Run (Context.start (fun _ => none))).2.log →
      e.1 ∈ exampleSets.base.writeset_)) :=
  ⟨Constructed.rmwOfSets _ _ _, by decide, by decide,
   Run_within_declared_sets exampleSets (Constructed.rmwOfSets _ _ _) (fun _ => none)⟩

/-! ## clone -/

theorem AnyTxn_clone_same {V : Type} (a : AnyTxn V) :
    a.clone.variant = a.variant ∧
    a.clone.base.readset_ = a.base.readset_ ∧
    a.clone.base.writeset_ = a.base.writeset_ ∧
    a.clone.config = a.config := by
  cases a <;> exact ⟨rfl, rfl, rfl, rfl⟩

theorem Heap_deref_alloc_old {V : Type} (h : Heap V) (a b : AnyTxn V) (p : Nat)
    (hp : h.deref p = some a) : (h.alloc b).1.deref p = some a := by
  unfold Heap.deref at hp
  obtain ⟨hlt, -⟩ := List.getElem?_eq_some.1 hp
  show (h.objects ++ [b])[p]? = some a
  rw [List.getElem?_append_left hlt]
  exact hp

theorem Heap_deref_alloc_new {V : Type} (h : Heap V) (b : AnyTxn V) :
    (h.alloc b).1.deref (h.alloc b).2 = some b := by
  show (h.objects ++ [b])[h.objects.length]? = some b
  simp

theorem Heap_deref_setStatus_ne {V : Type} (h : Heap V) (p q : Nat) (o : Outcome)
    (hne : q ≠ p) : (h.setStatus q o).deref p = h.deref p := by
  show (h.objects.modify (AnyTxn.setStatus o) q)[p]? = h.objects[p]?
  exact List.getElem?_modify_ne _ _ hne

/-- C11: `clone()` through a pointer to a transaction of any class creates a
new object (a pointer different from the original) of the same class, with
the Readset and the Writeset of the original and the same class-specific
configuration (`m_` for `Expect` and `Put`, `time_` for `RMW`); the original is
left as it was, and overwriting the outcome of either object afterwards does
not change the other. -/
theorem clone_copies_and_is_independent {V : Type} (h : Heap V) (p : Nat) (a : AnyTxn V)
    (hp : h.deref p = some a) :
    ∃ (h1 : Heap V) (q : Nat) (b : AnyTxn V),
      h.clone p = some (h1, q) ∧ q ≠ p ∧
      h1.deref p = some a ∧ h1.deref q = some b ∧
      b.variant = a.variant ∧
      b.base.readset_ = a.base.readset_ ∧
      b.base.writeset_ = a.base.writeset_ ∧
      b.config = a.config ∧
      (∀ o, (h1.setStatus q o).deref p = some a) ∧
      (∀ o, (h1.setStatus p o).deref q = some b) := by
  have hlt : p < h.objects.length := (List.getElem?_eq_some.1 hp).1
  have hne : (h.alloc a.clone).2 ≠ p := by
    show h.objects.length ≠ p
    omega
  have hold := Heap_deref_alloc_old h a a.clone p hp
  have hnew := Heap_deref_alloc_new h a.clone
  obtain ⟨hv, hr, hw, hc⟩ := AnyTxn_clone_same a
  refine ⟨(h.alloc a.clone).1, (h.alloc a.clone).2, a.clone, ?_, hne, hold, hnew, hv, hr, hw,
    hc, ?_, ?_⟩
  · unfold Heap.clone
    rw [hp]
  · intro o
    rw [Heap_deref_setStatus_ne _ _ _ o hne]
    exact hold
  · intro o
    rw [Heap_deref_setStatus_ne _ _ _ o (Ne.symm hne)]
    exact hnew

/-- Witness for C11: the `Expect` of the mapping 5 -> 10, 7 -> 20 at position
0 of a free store is cloned to position 1. -/
theorem clone_copies_and_is_independent_witness :
    exampleHeap.deref 0 = some (AnyTxn.expect (Expect.ofMap ⟨[(5, 10), (7, 20)], by decide⟩)) ∧
    ∃ (h1 : Heap Nat) (q : Nat) (b : AnyTxn Nat),
      exampleHeap.clone 0 = some (h1, q) ∧ q ≠ 0 ∧
      h1.deref 0 = some (AnyTxn.expect (Expect.ofMap ⟨[(5, 10), (7, 20)], by decide⟩)) ∧
      h1.deref q = some b ∧
      b.variant = (AnyTxn.expect (Expect.ofMap ⟨[(5, 10), (7, 20)], by decide⟩)
        : AnyTxn Nat).variant ∧
      b.base.readset_ = (AnyTxn.expect (Expect.ofMap ⟨[(5, 10), (7, 20)], by decide⟩)
        : AnyTxn Nat).base.readset_ ∧
      b.base.writeset_ = (AnyTxn.expect (Expect.ofMap ⟨[(5, 10), (7, 20)], by decide⟩)
        : AnyTxn Nat).base.writeset_ ∧
      b.config = (AnyTxn.expect (Expect.ofMap ⟨[(5, 10), (7, 20)], by decide⟩)
        : AnyTxn Nat).config ∧
      (∀ o, (h1.setStatus q o).deref 0
        = some (AnyTxn.expect (Expect.ofMap ⟨[(5, 10), (7, 20)], by decide⟩))) ∧
      (∀ o, (h1.setStatus 0 o).deref q = some b) :=
  ⟨rfl, clone_copies_and_is_independent exampleHeap 0 _ rfl⟩

/-! ## Selection of the target partitions -/

theorem StdSet.find_eq_none (s : StdSet) (key : Key) : s.find key = none ↔ key ∉ s := by
  unfold StdSet.find
  by_cases h : key ∈ s.keys
  · simp [h, StdSet.mem_iff]
  · simp [h, StdSet.mem_iff]

theorem selectPartitions_distinct (dbsize chunk_size k : Int) :
    ∀ (draws : List Nat) (partitions : StdSet) (v : List Int) (counter : Int)
      (out : List Int) (parts : StdSet) (rest : List Nat),
      RMW.selectPartitions dbsize chunk_size k partitions v counter draws
        = Except.ok (out, parts, rest) →
      (∀ x, x ∈ partitions ↔ x ∈ v) → v.Nodup →
      out.Nodup ∧ ∀ x, x ∈ parts ↔ x ∈ out := by
  intro draws
  induction draws with
  | nil =>
    intro partitions v counter out parts rest h hpv hnd
    unfold RMW.selectPartitions at h
    split_ifs at h with hlt
    injection h with h
    injection h with h1 h2
    injection h2 with h2 h3
    subst h1; subst h2
    exact ⟨hnd, hpv⟩
  | cons r ds ih =>
    intro partitions v counter out parts rest h hpv hnd
    unfold RMW.selectPartitions at h
    split_ifs at h with hlt
    · split at h
      · exact absurd h (by simp)
      · split at h
        · exact absurd h (by simp)
        · rename_i index hindex
          split_ifs at h with hnew
          · have hni : index ∉ v := by
              rw [← hpv]; exact (StdSet.find_eq_none _ _).1 hnew
            refine ih _ _ _ _ _ _ h ?_ ?_
            · intro x
              rw [StdSet.mem_insert, List.mem_append, List.mem_singleton, hpv x]
              tauto
            · rw [List.nodup_append]
              refine ⟨hnd, List.nodup_singleton index, ?_⟩
              intro a ha hb
              rw [List.mem_singleton] at hb
              exact hni (hb ▸ ha)
          · exact ih _ _ _ _ _ _ h hpv hnd
    · injection h with h
      injection h with h1 h2
      injection h2 with h2 h3
      subst h1; subst h2
      exact ⟨hnd, hpv⟩

/-- C15: when the selection loop of the partition constructor completes on a
list of draws, with `1 <= thread_count <= dbsize` and `k >= 0`, the vector `v`
has exactly `min(k, thread_count)` entries, the entries are pairwise distinct,
and the set `partitions` holds exactly the entries of `v`. -/
theorem RMW_selectPartitions_target (dbsize k thread_count : Int) (draws rest : List Nat)
    (v : List Int) (partitions : StdSet)
    (h1 : 1 ≤ thread_count) (h2 : thread_count ≤ dbsize) (hk : 0 ≤ k)
    (hsel : RMW.selectPartitions dbsize (Int.tdiv dbsize thread_count)
      (RMW.clampK k thread_count) StdSet.empty [] 0 draws = Except.ok (v, partitions, rest)) :
    (v.length : Int) = min k thread_count ∧ v.Nodup ∧ ∀ x, x ∈ partitions ↔ x ∈ v := by
  have hcpos : 0 < Int.tdiv dbsize thread_count := by
    rw [Int.tdiv_eq_ediv (by omega) (by omega)]
    exact Int.le_ediv_of_mul_le (by omega) (by omega)
  obtain ⟨hlen, -⟩ := selectPartitions_ok dbsize _ _ (by omega) hcpos _ _ _ _ _ _ _ hsel
  obtain ⟨hnd, hmem⟩ := selectPartitions_distinct dbsize _ _ _ _ _ _ _ _ _ hsel
    (fun x => by simp [StdSet.mem_iff, StdSet.empty]) List.nodup_nil
  refine ⟨?_, hnd, hmem⟩
  rw [hlen, ← clampK_eq_min]
  have hpos : 0 ≤ RMW.clampK k thread_count := by
    rw [clampK_eq_min]; exact le_min hk (by omega)
  simp only [List.length_nil, zero_add, sub_zero]
  exact Int.toNat_of_nonneg hpos

/-- Witness for C15: for `dbsize = 100`, `thread_count = 10`, `k = 2` the draws
5, 15, 3, 7 select the partitions 0 and 1 with the first two draws. -/
theorem RMW_selectPartitions_target_witness :
    RMW.selectPartitions 100 (Int.tdiv 100 10) (RMW.clampK 2 10) StdSet.empty [] 0
      [5, 15, 3, 7] = Except.ok ([0, 1], ⟨[0, 1], by decide⟩, [3, 7]) ∧
    ((([0, 1] : List Int).length : Int) = min 2 10 ∧ ([0, 1] : List Int).Nodup ∧
      ∀ x, x ∈ (⟨[0, 1], by decide⟩ : StdSet) ↔ x ∈ ([0, 1] : List Int)) :=
  ⟨rfl, RMW_selectPartitions_target 100 2 10 [5, 15, 3, 7] [3, 7] [0, 1] ⟨[0, 1], by decide⟩
    (by decide) (by decide) (by decide) rfl⟩

/-! ## Coverage of the target partitions by the writes -/

theorem partitionWrites_mono (chunk_size k : Int) (v : List Int) (readset_ : StdSet) :
    ∀ (n : Nat) (i count_across : Int) (writeset_ : StdSet) (draws : List Nat)
      (out : StdSet) (count_across1 : Int) (rest : List Nat),
      RMW.partitionWrites chunk_size k v readset_ n i count_across writeset_ draws
        = Except.ok (out, count_across1, rest) →
      ∀ key, key ∈ writeset_ → key ∈ out := by
  intro n
  induction n with
  | zero =>
    intro i count_across writeset_ draws out count_across1 rest h key hk
    simp only [RMW.partitionWrites] at h
    injection h with h
    injection h with h1 h2
    subst h1
    exact hk
  | succ n ih =>
    intro i count_across writeset_ draws out count_across1 rest h key hk
    simp only [RMW.partitionWrites] at h
    split at h
    · exact absurd h (by simp)
    · exact ih _ _ _ _ _ _ _ h key ((StdSet.mem_insert _ _ _).2 (Or.inr hk))

theorem partitionWrites_cover (chunk_size k : Int) (v : List Int) (readset_ : StdSet) :
    ∀ (n : Nat) (i count_across : Int) (writeset_ : StdSet) (draws : List Nat)
      (out : StdSet) (count_across1 : Int) (rest : List Nat),
      RMW.partitionWrites chunk_size k v readset_ n i count_across writeset_ draws
        = Except.ok (out, count_across1, rest) →
      (i < k → count_across = i) →
      ∀ (j p : Int), i ≤ j → j < i + n → j < k → vectorAt v j = Except.ok p →
        ∃ key, key ∈ out ∧
          ∃ r : Nat, RMW.chunkKey chunk_size p (r : Int) = Except.ok key := by
  intro n
  induction n with
  | zero =>
    intro i count_across writeset_ draws out count_across1 rest _ _ j p h1 h2
    simp only [Nat.cast_zero, add_zero] at h2
    omega
  | succ n ih =>
    intro i count_across writeset_ draws out count_across1 rest h hinv j p hij hjn hjk hat
    simp only [RMW.partitionWrites] at h
    split at h
    · exact absurd h (by simp)
    · rename_i key ca rest1 hn
      by_cases hji : j = i
      · subst hji
        have hca : count_across < k := by rw [hinv hjk]; exact hjk
        obtain ⟨-, index, hidx, r, hr⟩ := nextKey_cover _ _ _ _ _ _ _ _ _ _ _ hca hn
        rw [hat] at hidx
        injection hidx with hidx
        subst hidx
        exact ⟨key, partitionWrites_mono _ _ _ _ _ _ _ _ _ _ _ _ h key
          ((StdSet.mem_insert _ _ _).2 (Or.inl rfl)), r, hr⟩
      · have hinv1 : i + 1 < k → ca = i + 1 := by
          intro hlt
          have hik : i < k := by omega
          have hca : count_across < k := by rw [hinv hik]; exact hik
          obtain ⟨hca1, -⟩ := nextKey_cover _ _ _ _ _ _ _ _ _ _ _ hca hn
          rw [hca1, hinv hik]
        refine ih _ _ _ _ _ _ _ h hinv1 j p (by omega) ?_ hjk hat
        push_cast at hjn
        omega

theorem vectorAt_of_mem (v : List Int) (p : Int) (hp : p ∈ v) :
    ∃ j : Int, 0 ≤ j ∧ j < v.length ∧ vectorAt v j = Except.ok p := by
  obtain ⟨n, hn, hv⟩ := List.getElem_of_mem hp
  refine ⟨(n : Int), by omega, by omega, ?_⟩
  unfold vectorAt
  rw [if_neg (by omega), Int.toNat_ofNat, List.getElem?_eq_getElem hn, hv]

theorem touched_subset (chunk_size : Int) (t : Txn) (v : List Int) (hc : 0 < chunk_size)
    (hnn : ∀ p, p ∈ v → 0 ≤ p)
    (hkeys : ∀ key, key ∈ t.readset_ ∨ key ∈ t.writeset_ →
      ∃ p, p ∈ v ∧ p * chunk_size ≤ key ∧ key < (p + 1) * chunk_size) :
    touched chunk_size t ⊆ v.toFinset := by
  intro x hx
  unfold touched at hx
  rw [List.mem_toFinset, List.mem_map] at hx
  obtain ⟨key, hkey, rfl⟩ := hx
  rw [List.mem_append] at hkey
  obtain ⟨p, hp, hlo, hhi⟩ := hkeys key hkey
  rw [partitionOf_chunk _ p key hc (hnn p hp) hlo hhi]
  exact List.mem_toFinset.2 hp

/-- C14: when the partition constructor completes on a list of draws, with
`1 <= thread_count <= dbsize`, `k >= 1` and
`writesetsize >= min(k, thread_count)`, every entry of the selected vector `v`
has a key of the Writeset in its chunk, and the Readset and the Writeset
together touch exactly `min(k, thread_count)` distinct partitions. -/
theorem RMW_acrossPartitions_writes_cover
    (dbsize readsetsize writesetsize k thread_count : Int)
    (time : Double) (draws rest : List Nat) (t : RMW)
    (h1 : 1 ≤ thread_count) (h2 : thread_count ≤ dbsize) (hk : 1 ≤ k)
    (hws : min k thread_count ≤ writesetsize)
    (hrun : RMW.acrossPartitions dbsize readsetsize writesetsize k thread_count time draws
      = Except.ok (t, rest)) :
    ∃ (v : List Int) (partitions : StdSet) (draws1 : List Nat),
      RMW.selectPartitions dbsize (Int.tdiv dbsize thread_count) (RMW.clampK k thread_count)
        StdSet.empty [] 0 draws = Except.ok (v, partitions, draws1) ∧
      (∀ p, p ∈ v → ∃ key, key ∈ t.writeset_ ∧
        p * Int.tdiv dbsize thread_count ≤ key ∧
        key < (p + 1) * Int.tdiv dbsize thread_count) ∧
      ((touched (Int.tdiv dbsize thread_count) t.toTxn).card : Int) = min k thread_count := by
  obtain ⟨chunk_size, v, partitions, draws1, draws2, ca, ca1, -, hchunk, hsel, hwrites, hreads,
    -, -⟩ := acrossPartitions_ok _ _ _ _ _ _ _ _ _ hrun
  obtain ⟨hce, hcpos⟩ := chunk_size_pos _ _ _ h1 h2 hchunk
  subst hce
  obtain ⟨v1, partitions1, draws3, hsel1, hlen1, hnn, hkeys⟩ :=
    acrossPartitions_keys _ _ _ _ _ _ _ _ _ h1 h2 hrun
  rw [hsel] at hsel1
  injection hsel1 with hsel1
  injection hsel1 with e1 e2
  subst e1
  obtain ⟨hnd, -⟩ := selectPartitions_distinct dbsize _ _ _ _ _ _ _ _ _ hsel
    (fun x => by simp [StdSet.mem_iff, StdSet.empty]) List.nodup_nil
  have hclamp : 0 ≤ RMW.clampK k thread_count := by
    rw [clampK_eq_min]; exact le_min (by omega) (by omega)
  have hlenI : (v.length : Int) = RMW.clampK k thread_count := by
    rw [hlen1]; exact Int.toNat_of_nonneg hclamp
  have hcover : ∀ p, p ∈ v → ∃ key, key ∈ t.writeset_ ∧
      p * Int.tdiv dbsize thread_count ≤ key ∧
      key < (p + 1) * Int.tdiv dbsize thread_count := by
    intro p hp
    obtain ⟨j, hj0, hjlen, hat⟩ := vectorAt_of_mem v p hp
    have hwn : 0 ≤ writesetsize := by
      rw [← clampK_eq_min] at hws; omega
    have hjn : j < 0 + (writesetsize.toNat : Int) := by
      rw [Int.toNat_of_nonneg hwn, ← clampK_eq_min] at *
      omega
    obtain ⟨key, hkey, r, hr⟩ := partitionWrites_cover _ _ _ _ _ _ _ _ _ _ _ _ hwrites
      (fun _ => rfl) j p hj0 hjn (by omega) hat
    exact ⟨key, hkey, chunkKey_range _ _ _ _ (by omega) hr⟩
  refine ⟨v, partitions, draws1, hsel, hcover, ?_⟩
  have hsub := touched_subset (Int.tdiv dbsize thread_count) t.toTxn v (by omega) hnn hkeys
  have hsup : v.toFinset ⊆ touched (Int.tdiv dbsize thread_count) t.toTxn := by
    intro p hp
    rw [List.mem_toFinset] at hp
    obtain ⟨key, hkey, hlo, hhi⟩ := hcover p hp
    unfold touched
    rw [List.mem_toFinset, List.mem_map]
    refine ⟨key, List.mem_append.2 (Or.inr hkey), ?_⟩
    exact partitionOf_chunk _ p key (by omega) (hnn p hp) hlo hhi
  have heq : touched (Int.tdiv dbsize thread_count) t.toTxn = v.toFinset :=
    Finset.Subset.antisymm hsub hsup
  rw [heq, List.toFinset_card_of_nodup hnd, hlenI, clampK_eq_min]

/-- Witness for C14: `RMW(100, 2, 3, 2, 10)` on the draws 5, 15, 3, 7, 1, 4, 0, 8,
1, 9 yields the five keys 3, 14, 17, 8, 19 over exactly the two partitions 0
and 1, each holding a write key. -/
theorem RMW_acrossPartitions_writes_cover_witness :
    RMW.acrossPartitions 100 2 3 2 10 ⟨0⟩ [5, 15, 3, 7, 1, 4, 0, 8, 1, 9]
      = Except.ok (exampleAcross, []) ∧
    ∃ (v : List Int) (partitions : StdSet) (draws1 : List Nat),
      RMW.selectPartitions 100 (Int.tdiv 100 10) (RMW.clampK 2 10)
        StdSet.empty [] 0 [5, 15, 3, 7, 1, 4, 0, 8, 1, 9]
        = Except.ok (v, partitions, draws1) ∧
      (∀ p, p ∈ v → ∃ key, key ∈ exampleAcross.writeset_ ∧
        p * Int.tdiv 100 10 ≤ key ∧ key < (p + 1) * Int.tdiv 100 10) ∧
      ((touched (Int.tdiv 100 10) exampleAcross.toTxn).card : Int) = min 2 10 :=
  ⟨rfl,
   RMW_acrossPartitions_writes_cover 100 2 3 2 10 ⟨0⟩ [5, 15, 3, 7, 1, 4, 0, 8, 1, 9] []
     exampleAcross (by decide) (by decide) (by decide) (by decide) rfl⟩

/-! ## Expect from a key set -/

theorem StdSet.eq_of_keys (s t : StdSet) (h : s.keys = t.keys) : s = t := by
  cases s; cases t
  simp only at h
  subst h
  rfl

theorem StdMap.eq_of_entries {V : Type} (m n : StdMap V) (h : m.entries = n.entries) :
    m = n := by
  cases m; cases n
  simp only at h
  subst h
  rfl

theorem foldl_insertEntry_entries {V : Type} (value : V) :
    ∀ (l : List Key) (acc : StdMap V), (acc.domain ++ l).Pairwise (· < ·) →
      (l.foldl (fun m arg => m.insert arg value) acc).entries
        = acc.entries ++ l.map (fun key => (key, value)) := by
  intro l
  induction l with
  | nil => intro acc _; simp
  | cons a l ih =>
    intro acc h
    have ha : ∀ x, x ∈ acc.entries.map Prod.fst → x < a := by
      intro x hx
      exact (List.pairwise_append.1 h).2.2 x hx a (List.mem_cons_self a l)
    have he : (acc.insert a value).entries = acc.entries ++ [(a, value)] :=
      insertEntry_append a value acc.entries ha
    have hk : (acc.insert a value).domain = acc.domain ++ [a] := by
      show (insertEntry a value acc.entries).map Prod.fst = acc.entries.map Prod.fst ++ [a]
      rw [insertEntry_append a value acc.entries ha]
      simp
    rw [List.foldl_cons, ih (acc.insert a value) (by rw [hk]; simpa using h), he]
    simp

theorem Expect_ofSet_fields {V : Type} [One V] (s : StdSet) :
    (Expect.ofSet s : Expect V).readset_ = s ∧
    (Expect.ofSet s : Expect V).m_ = constantOneMap s := by
  constructor
  · exact StdSet.eq_of_keys _ _ (Expect_ofSet_sets s).1
  · apply StdMap.eq_of_entries
    have h := foldl_insertEntry_entries (1 : V) s.keys StdMap.empty
      (by simpa [StdMap.empty, StdMap.domain] using s.ascending)
    simpa [StdMap.empty, constantOneMap] using h

/-- C16: for every key set `s`, `Expect(s)` has Readset `s` and the expected
mapping `key -> 1` for every key of `s`; it is the same object as `Expect` of
that constant mapping, so both have the same declared sets and `Run` gives
the same result on every context. -/
theorem Expect_ofSet_eq_ofMap_constantOne {V : Type} [One V] [DecidableEq V] (s : StdSet) :
    (Expect.ofSet s : Expect V).readset_ = s ∧
    (Expect.ofSet s : Expect V).m_.entries = s.keys.map (fun key => (key, (1 : V))) ∧
    (Expect.ofSet s : Expect V) = Expect.ofMap (constantOneMap s) ∧
    (Expect.ofSet s : Expect V).readset_ = (Expect.ofMap (constantOneMap s : StdMap V)).readset_ ∧
    (Expect.ofSet s : Expect V).writeset_
      = (Expect.ofMap (constantOneMap s : StdMap V)).writeset_ ∧
    ∀ c : Context V,
      (Expect.ofSet s : Expect V).Run c = (Expect.ofMap (constantOneMap s)).Run c := by
  obtain ⟨hr, hm⟩ := Expect_ofSet_fields (V := V) s
  have hr2 : (Expect.ofMap (constantOneMap s : StdMap V)).readset_ = s := by
    apply StdSet.eq_of_keys
    rw [(declared_sets_of_expect (constantOneMap s : StdMap V)).1]
    simp [StdMap.domain, constantOneMap, List.map_map, Function.comp_def]
  have build : ∀ (r r1 : StdSet) (m m1 : StdMap V), r = r1 → m = m1 →
      ({ readset_ := r, writeset_ := StdSet.empty, status_ := Outcome.pending, m_ := m }
        : Expect V)
      = { readset_ := r1, writeset_ := StdSet.empty, status_ := Outcome.pending, m_ := m1 } := by
    intro r r1 m m1 e1 e2
    subst e1; subst e2
    rfl
  have heq : (Expect.ofSet s : Expect V) = Expect.ofMap (constantOneMap s) :=
    build _ _ _ _ (hr.trans hr2.symm) hm
  refine ⟨hr, ?_, heq, hr.trans hr2.symm, rfl, ?_⟩
  · rw [hm]; rfl
  · intro c
    rw [heq]

/-! ## Expect::Run reads a leading segment of the domain and writes nothing -/

theorem Expect_RunLoop_reads {V : Type} [DecidableEq V] :
    ∀ (entries : List (Key × V)) (c : Context V),
      (Expect.RunLoop entries c).2.store = c.store ∧
      (Expect.RunLoop entries c).2.log = c.log ++
        ((entries.map Prod.fst).take
          ((entries.takeWhile (fun e => decide (c.store e.1 = some e.2))).length + 1)).map
          Access.read := by
  intro entries
  induction entries with
  | nil => intro c; simp [Expect.RunLoop]
  | cons it rest ih =>
    intro c
    obtain ⟨k, v⟩ := it
    have hc1 : (Read c k).2 = { store := c.store, log := c.log ++ [Access.read k] } := rfl
    unfold Expect.RunLoop
    split
    · rename_i c1 hread
      have h0 : c.store k = none := by
        have := congrArg Prod.fst hread
        simpa [Read] using this
      have e : c1 = (Read c k).2 := (congrArg Prod.snd hread).symm
      subst e
      simp [hc1, h0, List.takeWhile_cons]
    · rename_i result c1 hread
      have h0 : c.store k = some result := by
        have := congrArg Prod.fst hread
        simpa [Read] using this
      have e : c1 = (Read c k).2 := (congrArg Prod.snd hread).symm
      subst e
      split_ifs with hne
      · have hne1 : ¬ result = v := hne
        simp [hc1, h0, List.takeWhile_cons, hne1]
      · have hrv : result = v := by simpa using hne
        obtain ⟨hs, hl⟩ := ih (Read c k).2
        refine ⟨hs.trans rfl, ?_⟩
        rw [hl, hc1]
        simp [h0, hrv, List.takeWhile_cons]

/-- C17: for every mapping `m` and every context, `Expect::Run` leaves the store
as it was and makes no `Write` call; its `Read` calls are, in ascending key
order, the keys of `m` up to and including the first one that is missing or
holds another value (all keys of `m` when there is none), and nothing after
it. -/
theorem Expect_Run_reads_leading_segment {V : Type} [DecidableEq V] (m : StdMap V)
    (c : Context V) :
    ((Expect.ofMap m).Run c).2.store = c.store ∧
    writeCalls ((Expect.ofMap m).Run c).2.log = writeCalls c.log ∧
    ((Expect.ofMap m).Run c).2.log = c.log ++
      (m.domain.take
        ((m.entries.takeWhile (fun e => decide (c.store e.1 = some e.2))).length + 1)).map
        Access.read ∧
    m.domain.Pairwise (· < ·) := by
  obtain ⟨hs, hl⟩ := Expect_RunLoop_reads m.entries c
  obtain ⟨hw, -⟩ := Expect_RunLoop_log m.entries c
  have hsnd := Expect_Run_snd (Expect.ofMap m) c
  have hm : (Expect.ofMap m).m_ = m := rfl
  rw [hm] at hsnd
  rw [hsnd]
  exact ⟨hs, hw, hl, m.ascending⟩

/-! ## The frame of RMW::Run -/

theorem RMW_Run_effect {V : Type} [Zero V] [One V] [Add V] (t : RMW) (c : Context V) :
    (∀ k, (t.Run c).2.store k
      = if k ∈ t.writeset_.keys then some ((c.store k).getD 0 + 1) else c.store k) ∧
    writeCalls (t.Run c).2.log
      = writeCalls c.log ++ t.writeset_.keys.map (fun key => (key, (c.store key).getD 0 + 1)) := by
  have hrun : (t.Run c).2 = t.writeset_.keys.foldl RMW.incrementKey
      { store := c.store, log := c.log ++ t.readset_.keys.map Access.read } := by
    unfold RMW.Run
    simp only [foldl_Read_eq]
  obtain ⟨hstore, hw, -⟩ := foldl_incrementKey t.writeset_.keys
    { store := c.store, log := c.log ++ t.readset_.keys.map Access.read } t.writeset_.ascending
  have hreads : ∀ l : List Key, writeCalls (l.map (Access.read : Key → Access V)) = [] := by
    intro l
    induction l with
    | nil => rfl
    | cons x xs ih => simpa [writeCalls] using ih
  constructor
  · intro k
    rw [hrun, hstore k]
  · rw [hrun, hw, writeCalls_append, hreads, List.append_nil]

/-- C18: for every RMW transaction and every context, every `Write` call of
`RMW::Run` has a key of the Writeset; every key outside the Writeset (so every
key that is only in the Readset) has the same presence and value in the store
after `Run` as before; and the same `Run` with any other Readset makes the
same `Write` calls and leaves the same store, so the reads of the Readset do
not influence any written value. -/
theorem RMW_Run_frame {V : Type} [Zero V] [One V] [Add V] (t : RMW) (c : Context V) :
    (∀ e, e ∈ writeCalls (t.Run c).2.log → e ∈ writeCalls c.log ∨ e.1 ∈ t.writeset_) ∧
    (∀ key, key ∉ t.writeset_ → (t.Run c).2.store key = c.store key) ∧
    (∀ key, key ∈ t.readset_ → key ∉ t.writeset_ → (t.Run c).2.store key = c.store key) ∧
    (∀ (readset : StdSet) (time : Double),
      writeCalls ((RMW.ofSets readset t.writeset_ time).Run c).2.log
        = writeCalls (t.Run c).2.log ∧
      ((RMW.ofSets readset t.writeset_ time).Run c).2.store = (t.Run c).2.store) := by
  obtain ⟨hstore, hw⟩ := RMW_Run_effect t c
  have hout : ∀ key, key ∉ t.writeset_ → (t.Run c).2.store key = c.store key := by
    intro key hk
    have hk1 : key ∉ t.writeset_.keys := hk
    rw [hstore key, if_neg hk1]
  refine ⟨?_, hout, fun key _ hk => hout key hk, ?_⟩
  · intro e he
    rw [hw, List.mem_append, List.mem_map] at he
    rcases he with h | ⟨key, hkey, rfl⟩
    · exact Or.inl h
    · exact Or.inr hkey
  · intro readset time
    obtain ⟨hstore1, hw1⟩ := RMW_Run_effect (RMW.ofSets readset t.writeset_ time) c
    constructor
    · rw [hw1, hw]; rfl
    · funext k
      rw [hstore1 k, hstore k]; rfl

/-! ## Disjointness of the declared sets -/

theorem randomWrites_disjoint (dbsize : Int) (readset_ : StdSet) :
    ∀ (n : Nat) (writeset_ : StdSet) (draws : List Nat) (out : StdSet) (rest : List Nat),
      RMW.randomWrites dbsize readset_ n writeset_ draws = Except.ok (out, rest) →
      ∀ key, key ∈ out → key ∈ writeset_ ∨ key ∉ readset_ := by
  intro n
  induction n with
  | zero =>
    intro writeset_ draws out rest h
    simp only [RMW.randomWrites] at h
    injection h with h
    injection h with h1 h2
    subst h1
    exact fun key hk => Or.inl hk
  | succ n ih =>
    intro writeset_ draws out rest h
    simp only [RMW.randomWrites] at h
    split at h
    · exact absurd h (by simp)
    · rename_i key rest1 hd
      obtain ⟨hfree, -⟩ := doWhile_ok _ _ _ _ _ hd
      have hfree2 : key ∉ readset_ ∧ key ∉ writeset_ := by
        rw [← StdSet.count_eq_zero, ← StdSet.count_eq_zero]
        simpa using hfree
      intro a ha
      rcases ih _ _ _ _ h a ha with h1 | h1
      · rcases (StdSet.mem_insert _ _ _).1 h1 with rfl | h2
        · exact Or.inr hfree2.1
        · exact Or.inl h2
      · exact Or.inr h1

theorem randomized_disjoint (dbsize readsetsize writesetsize : Int) (time : Double)
    (draws rest : List Nat) (t : RMW)
    (hrun : RMW.randomized dbsize readsetsize writesetsize time draws = Except.ok (t, rest)) :
    ∀ key, key ∈ t.readset_ → key ∉ t.writeset_ := by
  unfold RMW.randomized at hrun
  split at hrun
  · exact absurd hrun (by simp)
  · split at hrun
    · exact absurd hrun (by simp)
    · rename_i rs draws1 hreads
      split at hrun
      · exact absurd hrun (by simp)
      · rename_i ws draws2 hwrites
        injection hrun with hrun
        injection hrun with ht hrest
        subst ht
        intro key hk1 hk2
        exact ((randomWrites_disjoint dbsize rs _ _ _ _ _ hwrites key hk2).resolve_left
          (StdSet.not_mem_empty key)) hk1

theorem acrossPartitions_disjoint (dbsize readsetsize writesetsize k thread_count : Int)
    (time : Double) (draws rest : List Nat) (t : RMW)
    (hrun : RMW.acrossPartitions dbsize readsetsize writesetsize k thread_count time draws
      = Except.ok (t, rest)) :
    ∀ key, key ∈ t.readset_ → key ∉ t.writeset_ := by
  obtain ⟨chunk_size, v, partitions, draws1, draws2, ca, ca1, -, -, -, -, hreads,
    -, -⟩ := acrossPartitions_ok _ _ _ _ _ _ _ _ _ hrun
  obtain ⟨-, hrmem⟩ := partitionReads_ok _ _ _ _ _ _ _ _ _ _ _ _ hreads
  intro key hk
  exact ((hrmem key hk).resolve_left (StdSet.not_mem_empty key)).1

/-- The instances built from disjoint caller sets are instances built by the
constructors. -/
theorem ConstructedFromDisjoint_constructed {V : Type} [One V] (a : AnyTxn V)
    (h : ConstructedFromDisjoint a) : Constructed a := by
  cases h with
  | noop => exact Constructed.noop
  | expectOfMap m => exact Constructed.expectOfMap m
  | expectOfSet s => exact Constructed.expectOfSet s
  | putOfMap m => exact Constructed.putOfMap m
  | rmwOfTime time => exact Constructed.rmwOfTime time
  | rmwOfWriteset writeset time => exact Constructed.rmwOfWriteset writeset time
  | rmwOfSets readset writeset time _ => exact Constructed.rmwOfSets readset writeset time
  | rmwRandomized dbsize readsetsize writesetsize time draws rest t hrun =>
    exact Constructed.rmwRandomized dbsize readsetsize writesetsize time draws rest t hrun
  | rmwAcrossPartitions dbsize readsetsize writesetsize k thread_count time draws rest t hrun =>
    exact Constructed.rmwAcrossPartitions dbsize readsetsize writesetsize k thread_count time
      draws rest t hrun

/-- The only instances built by the constructors that are left out are those
of `RMW(readset, writeset)` for two sets with a common key. -/
theorem Constructed_cases {V : Type} [One V] (a : AnyTxn V) (h : Constructed a) :
    ConstructedFromDisjoint a ∨
    ∃ (readset writeset : StdSet) (time : Double) (key : Key),
      a = AnyTxn.rmw (RMW.ofSets readset writeset time) ∧ key ∈ readset ∧ key ∈ writeset := by
  cases h with
  | noop => exact Or.inl ConstructedFromDisjoint.noop
  | expectOfMap m => exact Or.inl (ConstructedFromDisjoint.expectOfMap m)
  | expectOfSet s => exact Or.inl (ConstructedFromDisjoint.expectOfSet s)
  | putOfMap m => exact Or.inl (ConstructedFromDisjoint.putOfMap m)
  | rmwOfTime time => exact Or.inl (ConstructedFromDisjoint.rmwOfTime time)
  | rmwOfWriteset writeset time =>
    exact Or.inl (ConstructedFromDisjoint.rmwOfWriteset writeset time)
  | rmwOfSets readset writeset time =>
    by_cases hd : ∀ key, key ∈ readset → key ∉ writeset
    · exact Or.inl (ConstructedFromDisjoint.rmwOfSets readset writeset time hd)
    · right
      push_neg at hd
      obtain ⟨key, hr, hw⟩ := hd
      exact ⟨readset, writeset, time, key, rfl, hr, hw⟩
  | rmwRandomized dbsize readsetsize writesetsize time draws rest t hrun =>
    exact Or.inl
      (ConstructedFromDisjoint.rmwRandomized dbsize readsetsize writesetsize time draws rest t
        hrun)
  | rmwAcrossPartitions dbsize readsetsize writesetsize k thread_count time draws rest t hrun =>
    exact Or.inl
      (ConstructedFromDisjoint.rmwAcrossPartitions dbsize readsetsize writesetsize k
        thread_count time draws rest t hrun)

/-- C13, as the code has it: for every instance that a constructor of `Noop`,
`Expect`, `Put` or `RMW` builds, the randomized constructors on every list of
draws on which they complete, no key is in both the Readset and the Writeset,
where the instances of `RMW(readset, writeset)` are those built from two sets
without a common key; that constructor stores the sets of its caller as they
are. -/
theorem constructed_sets_disjoint {V : Type} [One V] (a : AnyTxn V)
    (h : ConstructedFromDisjoint a) :
    ∀ key, ¬ (key ∈ a.base.readset_ ∧ key ∈ a.base.writeset_) := by
  intro key hboth
  cases h with
  | noop => exact StdSet.not_mem_empty key hboth.1
  | expectOfMap m => exact StdSet.not_mem_empty key hboth.2
  | expectOfSet s => exact StdSet.not_mem_empty key hboth.2
  | putOfMap m => exact StdSet.not_mem_empty key hboth.1
  | rmwOfTime time => exact StdSet.not_mem_empty key hboth.1
  | rmwOfWriteset writeset time => exact StdSet.not_mem_empty key hboth.1
  | rmwOfSets readset writeset time hdisjoint => exact hdisjoint key hboth.1 hboth.2
  | rmwRandomized dbsize readsetsize writesetsize time draws rest t hrun =>
    exact randomized_disjoint _ _ _ _ _ _ _ hrun key hboth.1 hboth.2
  | rmwAcrossPartitions dbsize readsetsize writesetsize k thread_count time draws rest t hrun =>
    exact acrossPartitions_disjoint _ _ _ _ _ _ _ _ _ hrun key hboth.1 hboth.2

/-- Witness for C13 as amended: `RMW(100, 2, 3, 2, 10)` on the draws 5, 15, 3, 7,
1, 4, 0, 8, 1, 9 completes, so the object with Writeset 3, 14, 17 and Readset
8, 19 is an instance built by a constructor; its sets have no common key. -/
theorem constructed_sets_disjoint_witness :
    ConstructedFromDisjoint (AnyTxn.rmw exampleAcross : AnyTxn Nat) ∧
    ∀ key, ¬ (key ∈ (AnyTxn.rmw exampleAcross : AnyTxn Nat).base.readset_ ∧
      key ∈ (AnyTxn.rmw exampleAcross : AnyTxn Nat).base.writeset_) :=
  ⟨ConstructedFromDisjoint.rmwAcrossPartitions 100 2 3 2 10 ⟨0⟩
     [5, 15, 3, 7, 1, 4, 0, 8, 1, 9] [] exampleAcross rfl,
   constructed_sets_disjoint (AnyTxn.rmw exampleAcross)
     (ConstructedFromDisjoint.rmwAcrossPartitions 100 2 3 2 10 ⟨0⟩
       [5, 15, 3, 7, 1, 4, 0, 8, 1, 9] [] exampleAcross rfl)⟩

/-- Counterexample to C13 as stated: `RMW(readset, writeset)` with Readset 1
and Writeset 1 is an instance built by a constructor, and the key 1 is in
both of its sets. -/
theorem explicit_sets_can_overlap :
    ¬ ∀ a : AnyTxn Nat, Constructed a →
      ∀ key, ¬ (key ∈ a.base.readset_ ∧ key ∈ a.base.writeset_) := by
  intro h
  exact h exampleOverlap (Constructed.rmwOfSets _ _ _) 1 ⟨by decide, by decide⟩

/-! ## Key capacity of the selected partitions -/

theorem acrossPartitions_card (dbsize readsetsize writesetsize k thread_count : Int)
    (time : Double) (draws rest : List Nat) (t : RMW)
    (hr : 0 ≤ readsetsize) (hw : 0 ≤ writesetsize)
    (hrun : RMW.acrossPartitions dbsize readsetsize writesetsize k thread_count time draws
      = Except.ok (t, rest)) :
    (t.readset_.keys.length : Int) = readsetsize ∧
    (t.writeset_.keys.length : Int) = writesetsize := by
  obtain ⟨chunk_size, v, partitions, draws1, draws2, ca, ca1, -, -, -, hwrites, hreads,
    -, -⟩ := acrossPartitions_ok _ _ _ _ _ _ _ _ _ hrun
  obtain ⟨hwsize, -⟩ := partitionWrites_ok _ _ _ _ _ _ _ _ _ _ _ _ hwrites
  obtain ⟨hrsize, -⟩ := partitionReads_ok _ _ _ _ _ _ _ _ _ _ _ _ hreads
  simp only [StdSet.size, StdSet.empty, List.length_nil, zero_add] at hwsize hrsize
  rw [hwsize, hrsize]
  exact ⟨Int.toNat_of_nonneg hr, Int.toNat_of_nonneg hw⟩

/-- A completed call of the partition constructor placed its
`readsetsize + writesetsize` distinct keys in the chunks of the
`min(k, thread_count)` selected partitions, so there were at most
`min(k, thread_count) * chunk_size` of them: a configuration that asks for more
never completes. -/
theorem acrossPartitions_capacity (dbsize readsetsize writesetsize k thread_count : Int)
    (time : Double) (draws rest : List Nat) (t : RMW)
    (h1 : 1 ≤ thread_count) (h2 : thread_count ≤ dbsize) (hk : 1 ≤ k)
    (hr : 0 ≤ readsetsize) (hw : 0 ≤ writesetsize)
    (hrun : RMW.acrossPartitions dbsize readsetsize writesetsize k thread_count time draws
      = Except.ok (t, rest)) :
    readsetsize + writesetsize ≤ min k thread_count * Int.tdiv dbsize thread_count := by
  obtain ⟨v, partitions, draws1, -, hlen, -, hkeys⟩ :=
    acrossPartitions_keys _ _ _ _ _ _ _ _ _ h1 h2 hrun
  obtain ⟨hrl, hwl⟩ := acrossPartitions_card _ _ _ _ _ _ _ _ _ hr hw hrun
  have hdis := acrossPartitions_disjoint _ _ _ _ _ _ _ _ _ hrun
  have hcpos : 0 < Int.tdiv dbsize thread_count := by
    rw [Int.tdiv_eq_ediv (by omega) (by omega)]
    exact Int.le_ediv_of_mul_le (by omega) (by omega)
  have hnd : (t.readset_.keys ++ t.writeset_.keys).Nodup := by
    rw [List.nodup_append]
    exact ⟨t.readset_.ascending.imp ne_of_lt, t.writeset_.ascending.imp ne_of_lt,
      fun key h1 h2 => hdis key h1 h2⟩
  have hsub : (t.readset_.keys ++ t.writeset_.keys).toFinset ⊆
      v.toFinset.biUnion (fun p => Finset.Ico (p * Int.tdiv dbsize thread_count)
        ((p + 1) * Int.tdiv dbsize thread_count)) := by
    intro key hkey
    rw [List.mem_toFinset, List.mem_append] at hkey
    obtain ⟨p, hp, hlo, hhi⟩ := hkeys key hkey
    rw [Finset.mem_biUnion]
    exact ⟨p, List.mem_toFinset.2 hp, Finset.mem_Ico.2 ⟨hlo, hhi⟩⟩
  have hcard : (t.readset_.keys ++ t.writeset_.keys).length
      ≤ v.length * (Int.tdiv dbsize thread_count).toNat := by
    rw [← List.toFinset_card_of_nodup hnd]
    refine le_trans (Finset.card_le_card hsub) (le_trans Finset.card_biUnion_le ?_)
    have hconst : ∀ p ∈ v.toFinset,
        (Finset.Ico (p * Int.tdiv dbsize thread_count)
          ((p + 1) * Int.tdiv dbsize thread_count)).card
          = (Int.tdiv dbsize thread_count).toNat := by
      intro p _
      rw [Int.card_Ico]
      congr 1
      ring
    rw [Finset.sum_congr rfl hconst, Finset.sum_const, smul_eq_mul]
    exact Nat.mul_le_mul_right _ (List.toFinset_card_le v)
  have hclamp : 0 ≤ RMW.clampK k thread_count := by
    rw [clampK_eq_min]; exact le_min (by omega) (by omega)
  have hI : ((t.readset_.keys ++ t.writeset_.keys).length : Int)
      ≤ (v.length : Int) * ((Int.tdiv dbsize thread_count).toNat : Int) := by
    exact_mod_cast hcard
  rw [List.length_append, Nat.cast_add, hrl, hwl, hlen, Int.toNat_of_nonneg hclamp,
    Int.toNat_of_nonneg (le_of_lt hcpos), clampK_eq_min] at hI
  exact hI

/-- C12, at the input where the code departs from it: `RMW(4, 0, 3, 1, 2)` asks
for 3 keys from one partition of `chunk_size = 2` keys.  The only check,
`DCHECK(dbsize >= readsetsize + writesetsize)`, passes; on the draws 0, 0, 1,
0, 0, 0, 1, 0, 1, 1 the constructor selects partition 0, writes the keys 0 and
1 and is still rejecting draws in the loop for the third key when the draws are
used up; and on no list of draws does the constructor complete. -/
theorem RMW_acrossPartitions_capacity_unchecked :
    DCHECK (decide ((4 : Int) ≥ 0 + 3)) = Except.ok () ∧
    (0 : Int) + 3 > min 1 2 * Int.tdiv 4 2 ∧
    RMW.acrossPartitions 4 0 3 1 2 ⟨0⟩ [0, 0, 1, 0, 0, 0, 1, 0, 1, 1]
      = Except.error Err.noDraws ∧
    ∀ (time : Double) (draws rest : List Nat) (t : RMW),
      RMW.acrossPartitions 4 0 3 1 2 time draws ≠ Except.ok (t, rest) := by
  refine ⟨rfl, by decide, rfl, ?_⟩
  intro time draws rest t hrun
  have h := acrossPartitions_capacity 4 0 3 1 2 time draws rest t
    (by decide) (by decide) (by decide) (by decide) (by decide) hrun
  exact absurd h (by decide)

/-! ## Progress of the rejection loops of the whole-keyspace constructor -/

theorem exists_free_key (dbsize : Int) (l : List Key) (hl : (l.length : Int) < dbsize) :
    ∃ x : Key, 0 ≤ x ∧ x < dbsize ∧ x ∉ l := by
  by_contra hno
  have hall : ∀ x : Key, 0 ≤ x → x < dbsize → x ∈ l := by
    intro x h0 h1
    by_contra hx
    exact hno ⟨x, h0, h1, hx⟩
  have hsub : Finset.Ico (0 : Int) dbsize ⊆ l.toFinset := by
    intro x hx
    rw [Finset.mem_Ico] at hx
    exact List.mem_toFinset.2 (hall x hx.1 hx.2)
  have hcard := le_trans (Finset.card_le_card hsub) (List.toFinset_card_le l)
  rw [Int.card_Ico] at hcard
  omega

theorem cmod_nat (dbsize : Int) (hdb : 0 < dbsize) (r : Nat) :
    cmod (r : Int) dbsize = Except.ok ((r : Int) % dbsize) := by
  unfold cmod
  rw [if_neg (ne_of_gt hdb), Int.tmod_eq_emod (Int.natCast_nonneg r) (le_of_lt hdb)]

theorem doWhile_exit (dbsize : Int) (hdb : 0 < dbsize) (taken : Key → Bool) (key : Key)
    (h0 : 0 ≤ key) (h1 : key < dbsize) (hfree : taken key = false) (tail : List Nat) :
    doWhile (fun r => cmod r dbsize) taken (key.toNat :: tail) = Except.ok (key, tail) := by
  have hk : ((key.toNat : Nat) : Int) % dbsize = key := by
    rw [Int.toNat_of_nonneg h0]
    exact Int.emod_eq_of_lt h0 h1
  unfold doWhile
  simp only [cmod_nat dbsize hdb, hk, hfree]
  rfl

theorem doWhile_progress (dbsize : Int) (hdb : 0 < dbsize) (s : Nat → Nat)
    (taken : Key → Bool) (x : Key) (hfree : taken x = false) :
    ∀ (d start : Nat), ((s (start + d) : Nat) : Int) % dbsize = x →
      ∃ (n : Nat) (key : Key), taken key = false ∧ 0 ≤ key ∧ key < dbsize ∧
        ∀ tail : List Nat,
          doWhile (fun r => cmod r dbsize) taken ((List.range' start n).map s ++ tail)
            = Except.ok (key, tail) := by
  have one : ∀ start : Nat, taken (((s start : Nat) : Int) % dbsize) = false →
      ∃ (n : Nat) (key : Key), taken key = false ∧ 0 ≤ key ∧ key < dbsize ∧
        ∀ tail : List Nat,
          doWhile (fun r => cmod r dbsize) taken ((List.range' start n).map s ++ tail)
            = Except.ok (key, tail) := by
    intro start ht
    refine ⟨1, ((s start : Nat) : Int) % dbsize, ht, Int.emod_nonneg _ (ne_of_gt hdb),
      Int.emod_lt_of_pos _ hdb, ?_⟩
    intro tail
    show doWhile _ taken (s start :: tail) = _
    unfold doWhile
    simp only [cmod_nat dbsize hdb, ht]
    rfl
  intro d
  induction d with
  | zero =>
    intro start hs
    apply one
    rw [Nat.add_zero] at hs
    rw [hs]
    exact hfree
  | succ d ih =>
    intro start hs
    cases ht : taken (((s start : Nat) : Int) % dbsize)
    · exact one start ht
    · have hs1 : ((s (start + 1 + d) : Nat) : Int) % dbsize = x := by
        rw [← hs]; congr 3; omega
      obtain ⟨n, key, hk, h0, h1, hrun⟩ := ih (start + 1) hs1
      refine ⟨n + 1, key, hk, h0, h1, ?_⟩
      intro tail
      rw [List.range'_succ]
      show doWhile _ taken (s start :: ((List.range' (start + 1) n).map s ++ tail)) = _
      unfold doWhile
      simp only [cmod_nat dbsize hdb, ht]
      exact hrun tail

theorem randomReads_progress (dbsize : Int) (s : Nat → Nat)
    (hfair : ∀ x : Int, 0 ≤ x → x < dbsize →
      ∀ N : Nat, ∃ n, N ≤ n ∧ ((s n : Nat) : Int) % dbsize = x) :
    ∀ (m : Nat) (readset_ : StdSet) (start : Nat),
      (readset_.size : Int) + m ≤ dbsize →
      ∃ (n : Nat) (out : StdSet), out.size = readset_.size + m ∧
        ∀ tail : List Nat,
          RMW.randomReads dbsize m readset_ ((List.range' start n).map s ++ tail)
            = Except.ok (out, tail) := by
  intro m
  induction m with
  | zero =>
    intro readset_ start _
    exact ⟨0, readset_, rfl, fun tail => by simp [RMW.randomReads]⟩
  | succ m ih =>
    intro readset_ start hcap
    push_cast at hcap
    have hdb : 0 < dbsize := by
      have : (0 : Int) ≤ (readset_.size : Int) := Int.natCast_nonneg _
      omega
    obtain ⟨x, hx0, hx1, hxfree⟩ := exists_free_key dbsize readset_.keys
      (by unfold StdSet.size at hcap; omega)
    have htaken : (fun key : Key => decide (readset_.count key ≠ 0)) x = false := by
      have := (StdSet.count_eq_zero readset_ x).2 hxfree
      simp [this]
    obtain ⟨n0, hn0, hs⟩ := hfair x hx0 hx1 start
    have hs1 : ((s (start + (n0 - start)) : Nat) : Int) % dbsize = x := by
      rw [← hs]; congr 3; omega
    obtain ⟨n1, key, hk, -, -, hrun⟩ :=
      doWhile_progress dbsize hdb s (fun key : Key => decide (readset_.count key ≠ 0)) x htaken
        (n0 - start) start hs1
    have hknot : key ∉ readset_ := by
      rw [← StdSet.count_eq_zero]
      simpa using hk
    obtain ⟨n2, out, hsize, hloop⟩ := ih (readset_.insert key) (start + n1)
      (by rw [StdSet.size_insert _ _ hknot]; push_cast; omega)
    refine ⟨n2 + n1, out, by rw [hsize, StdSet.size_insert _ _ hknot]; omega, ?_⟩
    intro tail
    rw [← List.range'_append_1, List.map_append, List.append_assoc]
    simp only [RMW.randomReads]
    rw [hrun]
    exact hloop tail

theorem randomWrites_progress (dbsize : Int) (s : Nat → Nat)
    (hfair : ∀ x : Int, 0 ≤ x → x < dbsize →
      ∀ N : Nat, ∃ n, N ≤ n ∧ ((s n : Nat) : Int) % dbsize = x)
    (readset_ : StdSet) :
    ∀ (m : Nat) (writeset_ : StdSet) (start : Nat),
      (readset_.size : Int) + writeset_.size + m ≤ dbsize →
      ∃ (n : Nat) (out : StdSet), out.size = writeset_.size + m ∧
        ∀ tail : List Nat,
          RMW.randomWrites dbsize readset_ m writeset_ ((List.range' start n).map s ++ tail)
            = Except.ok (out, tail) := by
  intro m
  induction m with
  | zero =>
    intro writeset_ start _
    exact ⟨0, writeset_, rfl, fun tail => by simp [RMW.randomWrites]⟩
  | succ m ih =>
    intro writeset_ start hcap
    push_cast at hcap
    have hdb : 0 < dbsize := by
      have : (0 : Int) ≤ (readset_.size : Int) := Int.natCast_nonneg _
      have : (0 : Int) ≤ (writeset_.size : Int) := Int.natCast_nonneg _
      omega
    obtain ⟨x, hx0, hx1, hxfree⟩ := exists_free_key dbsize (readset_.keys ++ writeset_.keys)
      (by unfold StdSet.size at hcap; rw [List.length_append]; push_cast; omega)
    rw [List.mem_append, not_or] at hxfree
    have htaken : (fun key : Key =>
        decide (readset_.count key ≠ 0) || decide (writeset_.count key ≠ 0)) x = false := by
      have e1 := (StdSet.count_eq_zero readset_ x).2 hxfree.1
      have e2 := (StdSet.count_eq_zero writeset_ x).2 hxfree.2
      simp [e1, e2]
    obtain ⟨n0, hn0, hs⟩ := hfair x hx0 hx1 start
    have hs1 : ((s (start + (n0 - start)) : Nat) : Int) % dbsize = x := by
      rw [← hs]; congr 3; omega
    obtain ⟨n1, key, hk, -, -, hrun⟩ :=
      doWhile_progress dbsize hdb s (fun key : Key =>
        decide (readset_.count key ≠ 0) || decide (writeset_.count key ≠ 0)) x htaken
        (n0 - start) start hs1
    have hknot : key ∉ readset_ ∧ key ∉ writeset_ := by
      rw [← StdSet.count_eq_zero, ← StdSet.count_eq_zero]
      simpa using hk
    obtain ⟨n2, out, hsize, hloop⟩ := ih (writeset_.insert key) (start + n1)
      (by rw [StdSet.size_insert _ _ hknot.2]; push_cast; omega)
    refine ⟨n2 + n1, out, by rw [hsize, StdSet.size_insert _ _ hknot.2]; omega, ?_⟩
    intro tail
    rw [← List.range'_append_1, List.map_append, List.append_assoc]
    simp only [RMW.randomWrites]
    rw [hrun]
    exact hloop tail

theorem randomized_progress (dbsize readsetsize writesetsize : Int) (time : Double)
    (hr : 0 ≤ readsetsize) (hw : 0 ≤ writesetsize)
    (hcap : readsetsize + writesetsize ≤ dbsize) (s : Nat → Nat)
    (hfair : ∀ x : Int, 0 ≤ x → x < dbsize →
      ∀ N : Nat, ∃ n, N ≤ n ∧ ((s n : Nat) : Int) % dbsize = x) :
    ∃ (n : Nat) (t : RMW),
      RMW.randomized dbsize readsetsize writesetsize time ((List.range n).map s)
        = Except.ok (t, []) := by
  obtain ⟨n1, rs, hrsize, hreads⟩ := randomReads_progress dbsize s hfair readsetsize.toNat
    StdSet.empty 0 (by
      rw [Int.toNat_of_nonneg hr]
      simp only [StdSet.size, StdSet.empty, List.length_nil, Nat.cast_zero]
      omega)
  obtain ⟨n2, ws, -, hwrites⟩ := randomWrites_progress dbsize s hfair rs writesetsize.toNat
    StdSet.empty (0 + n1) (by
      rw [hrsize, Int.toNat_of_nonneg hw]
      push_cast
      rw [Int.toNat_of_nonneg hr]
      simp only [StdSet.size, StdSet.empty, List.length_nil, Nat.cast_zero]
      omega)
  refine ⟨n2 + n1, RMW.mk ⟨rs, ws, Outcome.pending⟩ time, ?_⟩
  have hd : DCHECK (decide (dbsize ≥ readsetsize + writesetsize)) = Except.ok () := by
    unfold DCHECK
    rw [if_pos (by simpa using hcap)]
  have hsplit : (List.range (n2 + n1)).map s
      = (List.range' 0 n1).map s ++ ((List.range' (0 + n1) n2).map s ++ []) := by
    rw [List.range_eq_range', ← List.range'_append_1, List.map_append, List.append_nil]
  unfold RMW.randomized
  rw [hd, hsplit]
  simp only [hreads, hwrites]

theorem identity_draws_fair (dbsize : Int) :
    ∀ x : Int, 0 ≤ x → x < dbsize →
      ∀ N : Nat, ∃ n, N ≤ n ∧ (((fun i : Nat => i) n : Nat) : Int) % dbsize = x := by
  intro x h0 h1 N
  have hdb : 0 < dbsize := by omega
  refine ⟨x.toNat + N * dbsize.toNat, ?_, ?_⟩
  · have : 1 ≤ dbsize.toNat := by omega
    calc N = N * 1 := (Nat.mul_one N).symm
      _ ≤ N * dbsize.toNat := Nat.mul_le_mul_left N this
      _ ≤ x.toNat + N * dbsize.toNat := Nat.le_add_left _ _
  · show ((x.toNat + N * dbsize.toNat : Nat) : Int) % dbsize = x
    push_cast
    rw [Int.toNat_of_nonneg h0, Int.toNat_of_nonneg (le_of_lt hdb), Int.add_mul_emod_self]
    exact Int.emod_eq_of_lt h0 h1

/-- C19: for the whole-keyspace constructor with both sizes non-negative and
`readsetsize + writesetsize <= dbsize`: whenever the read loop is entered with
fewer than `readsetsize` keys in the Readset, or the write loop with a full
Readset and fewer than `writesetsize` keys in the Writeset, some key of
`[0, dbsize)` is in neither set, and the draw of that key exits the rejection
loop; so the constructor completes on a finite part of every sequence of draws
in which every residue of `[0, dbsize)` recurs without end, and a list of
draws on which it completes always exists. -/
theorem RMW_randomized_completes (dbsize readsetsize writesetsize : Int) (time : Double)
    (hr : 0 ≤ readsetsize) (hw : 0 ≤ writesetsize)
    (hcap : readsetsize + writesetsize ≤ dbsize) :
    (∀ readset_ : StdSet, (readset_.size : Int) < readsetsize →
      ∃ key : Key, 0 ≤ key ∧ key < dbsize ∧ key ∉ readset_ ∧
        ∀ tail : List Nat,
          doWhile (fun r => cmod r dbsize) (fun key => readset_.count key ≠ 0)
            (key.toNat :: tail) = Except.ok (key, tail)) ∧
    (∀ readset_ writeset_ : StdSet, (readset_.size : Int) = readsetsize →
      (writeset_.size : Int) < writesetsize →
      ∃ key : Key, 0 ≤ key ∧ key < dbsize ∧ key ∉ readset_ ∧ key ∉ writeset_ ∧
        ∀ tail : List Nat,
          doWhile (fun r => cmod r dbsize)
            (fun key => readset_.count key ≠ 0 || writeset_.count key ≠ 0)
            (key.toNat :: tail) = Except.ok (key, tail)) ∧
    (∀ s : Nat → Nat,
      (∀ x : Int, 0 ≤ x → x < dbsize →
        ∀ N : Nat, ∃ n, N ≤ n ∧ ((s n : Nat) : Int) % dbsize = x) →
      ∃ (n : Nat) (t : RMW),
        RMW.randomized dbsize readsetsize writesetsize time ((List.range n).map s)
          = Except.ok (t, [])) ∧
    (∃ (draws rest : List Nat) (t : RMW),
      RMW.randomized dbsize readsetsize writesetsize time draws = Except.ok (t, rest)) := by
  refine ⟨?_, ?_, ?_, ?_⟩
  · intro readset_ hsize
    obtain ⟨x, hx0, hx1, hxfree⟩ := exists_free_key dbsize readset_.keys
      (by unfold StdSet.size at hsize; omega)
    have htaken : (fun key : Key => decide (readset_.count key ≠ 0)) x = false := by
      have := (StdSet.count_eq_zero readset_ x).2 hxfree
      simp [this]
    exact ⟨x, hx0, hx1, hxfree, fun tail =>
      doWhile_exit dbsize (by omega) _ x hx0 hx1 htaken tail⟩
  · intro readset_ writeset_ hrsize hwsize
    obtain ⟨x, hx0, hx1, hxfree⟩ := exists_free_key dbsize (readset_.keys ++ writeset_.keys)
      (by unfold StdSet.size at hrsize hwsize; rw [List.length_append]; push_cast; omega)
    rw [List.mem_append, not_or] at hxfree
    have htaken : (fun key : Key =>
        decide (readset_.count key ≠ 0) || decide (writeset_.count key ≠ 0)) x = false := by
      have e1 := (StdSet.count_eq_zero readset_ x).2 hxfree.1
      have e2 := (StdSet.count_eq_zero writeset_ x).2 hxfree.2
      simp [e1, e2]
    exact ⟨x, hx0, hx1, hxfree.1, hxfree.2, fun tail =>
      doWhile_exit dbsize (by omega) _ x hx0 hx1 htaken tail⟩
  · intro s hfair
    exact randomized_progress dbsize readsetsize writesetsize time hr hw hcap s hfair
  · obtain ⟨n, t, h⟩ := randomized_progress dbsize readsetsize writesetsize time hr hw hcap
      (fun i => i) (identity_draws_fair dbsize)
    exact ⟨_, [], t, h⟩

/-- Witness for C19: the configuration `RMW(5, 2, 2)`. -/
theorem RMW_randomized_completes_witness :
    ((0 : Int) ≤ 2 ∧ (0 : Int) ≤ 2 ∧ (2 : Int) + 2 ≤ 5) ∧
    RMW.randomized 5 2 2 ⟨0⟩ [3, 3, 1, 1, 4, 0] = Except.ok (exampleRandomized, []) ∧
    ((∀ readset_ : StdSet, (readset_.size : Int) < 2 →
      ∃ key : Key, 0 ≤ key ∧ key < 5 ∧ key ∉ readset_ ∧
        ∀ tail : List Nat,
          doWhile (fun r => cmod r 5) (fun key => readset_.count key ≠ 0)
            (key.toNat :: tail) = Except.ok (key, tail)) ∧
    (∀ readset_ writeset_ : StdSet, (readset_.size : Int) = 2 →
      (writeset_.size : Int) < 2 →
      ∃ key : Key, 0 ≤ key ∧ key < 5 ∧ key ∉ readset_ ∧ key ∉ writeset_ ∧
        ∀ tail : List Nat,
          doWhile (fun r => cmod r 5)
            (fun key => readset_.count key ≠ 0 || writeset_.count key ≠ 0)
            (key.toNat :: tail) = Except.ok (key, tail)) ∧
    (∀ s : Nat → Nat,
      (∀ x : Int, 0 ≤ x → x < 5 →
        ∀ N : Nat, ∃ n, N ≤ n ∧ ((s n : Nat) : Int) % 5 = x) →
      ∃ (n : Nat) (t : RMW),
        RMW.randomized 5 2 2 ⟨0⟩ ((List.range n).map s) = Except.ok (t, [])) ∧
    (∃ (draws rest : List Nat) (t : RMW),
      RMW.randomized 5 2 2 ⟨0⟩ draws = Except.ok (t, rest))) :=
  ⟨⟨by decide, by decide, by decide⟩, rfl,
   RMW_randomized_completes 5 2 2 ⟨0⟩ (by decide) (by decide) (by decide)⟩

/-! ## No division by zero and no access out of range -/

theorem doWhile_error (keyOf : Int → Except Err Key) (taken : Key → Bool)
    (hkey : ∀ r : Nat, ∃ key, keyOf (r : Int) = Except.ok key) :
    ∀ (draws : List Nat) (e : Err),
      doWhile keyOf taken draws = Except.error e → e = Err.noDraws := by
  intro draws
  induction draws with
  | nil =>
    intro e h
    simp only [doWhile] at h
    injection h with h
    exact h.symm
  | cons r ds ih =>
    intro e h
    unfold doWhile at h
    obtain ⟨key, hk⟩ := hkey r
    rw [hk] at h
    simp only at h
    split_ifs at h with ht
    exact ih e h

theorem chunkKey_defined (chunk_size index : Int) (hc : chunk_size ≠ 0) (r : Nat) :
    ∃ key, RMW.chunkKey chunk_size index (r : Int) = Except.ok key := by
  unfold RMW.chunkKey cmod
  rw [if_neg hc]
  exact ⟨_, rfl⟩

theorem vectorAt_defined (v : List Int) (i : Int) (h0 : 0 ≤ i) (h1 : i < v.length) :
    ∃ x, vectorAt v i = Except.ok x := by
  have hlt : i.toNat < v.length := by omega
  refine ⟨v[i.toNat], ?_⟩
  unfold vectorAt
  rw [if_neg (by omega), List.getElem?_eq_getElem hlt]

theorem nextKey_count (chunk_size k : Int) (v : List Int) (i count_across : Int)
    (readset_ writeset_ : StdSet) (draws : List Nat) (key : Key) (count_across1 : Int)
    (rest : List Nat)
    (h : RMW.nextKey chunk_size k v i count_across readset_ writeset_ draws
      = Except.ok (key, count_across1, rest)) :
    (count_across < k → count_across1 = count_across + 1) ∧
    (¬ count_across < k → count_across1 = count_across) := by
  constructor
  · intro hlt
    exact (nextKey_cover _ _ _ _ _ _ _ _ _ _ _ hlt h).1
  · intro hge
    unfold RMW.nextKey at h
    rw [if_neg hge] at h
    split at h
    · exact absurd h (by simp)
    · split at h
      · exact absurd h (by simp)
      · split at h
        · exact absurd h (by simp)
        · split at h
          · exact absurd h (by simp)
          · injection h with h
            injection h with h1 h2
            injection h2 with h2 h3
            exact h2.symm

theorem nextKey_error (chunk_size k : Int) (v : List Int) (i count_across : Int)
    (readset_ writeset_ : StdSet) (draws : List Nat) (e : Err)
    (hc : chunk_size ≠ 0) (hk : 1 ≤ k) (hv : (v.length : Int) = k) (hi : 0 ≤ i)
    (hinv : count_across < k → i ≤ count_across)
    (h : RMW.nextKey chunk_size k v i count_across readset_ writeset_ draws
      = Except.error e) :
    e = Err.noDraws := by
  unfold RMW.nextKey at h
  split_ifs at h with hlt
  · obtain ⟨index, hindex⟩ := vectorAt_defined v i hi (by have := hinv hlt; omega)
    rw [hindex] at h
    simp only at h
    split at h
    · rename_i e1 hd
      injection h with h
      subst h
      exact doWhile_error _ _ (chunkKey_defined chunk_size index hc) _ _ hd
    · exact absurd h (by simp)
  · split at h
    · injection h with h
      exact h.symm
    · rename_i r draws0
      have hj := cmod_range r k _ (by omega) (cmod_nat k (by omega) r)
      rw [cmod_nat k (by omega) r] at h
      simp only at h
      obtain ⟨index, hindex⟩ := vectorAt_defined v (((r : Nat) : Int) % k) hj.1
        (by rw [hv]; exact hj.2)
      rw [hindex] at h
      simp only at h
      split at h
      · rename_i e1 hd
        injection h with h
        subst h
        exact doWhile_error _ _ (chunkKey_defined chunk_size index hc) _ _ hd
      · exact absurd h (by simp)

theorem partitionWrites_error (chunk_size k : Int) (v : List Int) (readset_ : StdSet)
    (hc : chunk_size ≠ 0) (hk : 1 ≤ k) (hv : (v.length : Int) = k) :
    ∀ (n : Nat) (i count_across : Int) (writeset_ : StdSet) (draws : List Nat) (e : Err),
      0 ≤ i → (count_across < k → i ≤ count_across) →
      RMW.partitionWrites chunk_size k v readset_ n i count_across writeset_ draws
        = Except.error e →
      e = Err.noDraws := by
  intro n
  induction n with
  | zero =>
    intro i count_across writeset_ draws e _ _ h
    simp [RMW.partitionWrites] at h
  | succ n ih =>
    intro i count_across writeset_ draws e hi hinv h
    simp only [RMW.partitionWrites] at h
    split at h
    · rename_i e1 hn
      injection h with h
      subst h
      exact nextKey_error _ _ _ _ _ _ _ _ _ hc hk hv hi hinv hn
    · rename_i key ca rest hn
      obtain ⟨hcov, hfill⟩ := nextKey_count _ _ _ _ _ _ _ _ _ _ _ hn
      refine ih _ _ _ _ e (by omega) ?_ h
      intro hlt
      by_cases hca : count_across < k
      · have := hinv hca
        have := hcov hca
        omega
      · have := hfill hca
        omega

theorem partitionWrites_count (chunk_size k : Int) (v : List Int) (readset_ : StdSet) :
    ∀ (n : Nat) (i count_across : Int) (writeset_ : StdSet) (draws : List Nat)
      (out : StdSet) (count_across1 : Int) (rest : List Nat),
      RMW.partitionWrites chunk_size k v readset_ n i count_across writeset_ draws
        = Except.ok (out, count_across1, rest) →
      count_across ≤ count_across1 := by
  intro n
  induction n with
  | zero =>
    intro i count_across writeset_ draws out count_across1 rest h
    simp only [RMW.partitionWrites] at h
    injection h with h
    injection h with h1 h2
    injection h2 with h2 h3
    omega
  | succ n ih =>
    intro i count_across writeset_ draws out count_across1 rest h
    simp only [RMW.partitionWrites] at h
    split at h
    · exact absurd h (by simp)
    · rename_i key ca rest1 hn
      obtain ⟨hcov, hfill⟩ := nextKey_count _ _ _ _ _ _ _ _ _ _ _ hn
      have := ih _ _ _ _ _ _ _ h
      by_cases hca : count_across < k
      · have := hcov hca
        omega
      · have := hfill hca
        omega

theorem partitionReads_error (chunk_size k : Int) (v : List Int) (writeset_ : StdSet)
    (hc : chunk_size ≠ 0) (hk : 1 ≤ k) (hv : (v.length : Int) = k) :
    ∀ (n : Nat) (i count_across : Int) (readset_ : StdSet) (draws : List Nat) (e : Err),
      0 ≤ i → (count_across < k → i ≤ count_across) →
      RMW.partitionReads chunk_size k v writeset_ n i count_across readset_ draws
        = Except.error e →
      e = Err.noDraws := by
  intro n
  induction n with
  | zero =>
    intro i count_across readset_ draws e _ _ h
    simp [RMW.partitionReads] at h
  | succ n ih =>
    intro i count_across readset_ draws e hi hinv h
    simp only [RMW.partitionReads] at h
    split at h
    · rename_i e1 hn
      injection h with h
      subst h
      exact nextKey_error _ _ _ _ _ _ _ _ _ hc hk hv hi hinv hn
    · rename_i key ca rest hn
      obtain ⟨hcov, hfill⟩ := nextKey_count _ _ _ _ _ _ _ _ _ _ _ hn
      refine ih _ _ _ _ e (by omega) ?_ h
      intro hlt
      by_cases hca : count_across < k
      · have := hinv hca
        have := hcov hca
        omega
      · have := hfill hca
        omega

theorem selectPartitions_error (dbsize chunk_size k : Int) (hdb : 0 < dbsize)
    (hc : chunk_size ≠ 0) :
    ∀ (draws : List Nat) (partitions : StdSet) (v : List Int) (counter : Int) (e : Err),
      RMW.selectPartitions dbsize chunk_size k partitions v counter draws = Except.error e →
      e = Err.noDraws := by
  intro draws
  induction draws with
  | nil =>
    intro partitions v counter e h
    unfold RMW.selectPartitions at h
    split_ifs at h with hlt
    injection h with h
    exact h.symm
  | cons r ds ih =>
    intro partitions v counter e h
    unfold RMW.selectPartitions at h
    split_ifs at h with hlt
    rw [cmod_nat dbsize hdb r] at h
    simp only [cdiv, if_neg hc] at h
    split_ifs at h with hnew
    · exact ih _ _ _ e h
    · exact ih _ _ _ e h

/-- C20: under `1 <= thread_count <= dbsize`, `k >= 1` and non-negative sizes,
on every list of draws, every divisor of the partition constructor (`dbsize`,
`thread_count`, `chunk_size`, the clamped `k`) is non-zero, and the
constructor ends neither in a division by zero nor in an access `v.at(...)`
out of range: a call that does not complete failed its `DCHECK` or is still
waiting for a draw. -/
theorem RMW_acrossPartitions_no_error_branch
    (dbsize readsetsize writesetsize k thread_count : Int) (time : Double) (draws : List Nat)
    (h1 : 1 ≤ thread_count) (h2 : thread_count ≤ dbsize) (hk : 1 ≤ k)
    (_hr : 0 ≤ readsetsize) (_hw : 0 ≤ writesetsize) :
    (dbsize ≠ 0 ∧ thread_count ≠ 0 ∧ Int.tdiv dbsize thread_count ≠ 0 ∧
      RMW.clampK k thread_count ≠ 0) ∧
    RMW.acrossPartitions dbsize readsetsize writesetsize k thread_count time draws
      ≠ Except.error Err.divByZero ∧
    RMW.acrossPartitions dbsize readsetsize writesetsize k thread_count time draws
      ≠ Except.error Err.outOfRange ∧
    ∀ e, RMW.acrossPartitions dbsize readsetsize writesetsize k thread_count time draws
      = Except.error e → e = Err.dcheck ∨ e = Err.noDraws := by
  have hcpos : 0 < Int.tdiv dbsize thread_count := by
    rw [Int.tdiv_eq_ediv (by omega) (by omega)]
    exact Int.le_ediv_of_mul_le (by omega) (by omega)
  have hclamp : 1 ≤ RMW.clampK k thread_count := by
    rw [clampK_eq_min]; exact le_min hk h1
  have main : ∀ e, RMW.acrossPartitions dbsize readsetsize writesetsize k thread_count time
      draws = Except.error e → e = Err.dcheck ∨ e = Err.noDraws := by
    intro e h
    unfold RMW.acrossPartitions at h
    dsimp only at h
    split at h
    · rename_i e1 hd
      injection h with h
      subst h
      left
      unfold DCHECK at hd
      split_ifs at hd
      injection hd with hd
      exact hd.symm
    · have hchunk : cdiv dbsize thread_count = Except.ok (Int.tdiv dbsize thread_count) := by
        unfold cdiv
        rw [if_neg (by omega)]
      rw [hchunk] at h
      simp only at h
      right
      split at h
      · rename_i e1 hsel
        injection h with h
        subst h
        exact selectPartitions_error dbsize _ _ (by omega) (ne_of_gt hcpos) _ _ _ _ _ hsel
      · rename_i v partitions draws1 hsel
        obtain ⟨hlen, -⟩ := selectPartitions_ok dbsize _ _ (by omega) hcpos _ _ _ _ _ _ _ hsel
        have hv : (v.length : Int) = RMW.clampK k thread_count := by
          rw [hlen]
          simp only [List.length_nil, zero_add, sub_zero]
          exact Int.toNat_of_nonneg (by omega)
        split at h
        · rename_i e1 hwrites
          injection h with h
          subst h
          exact partitionWrites_error _ _ _ _ (ne_of_gt hcpos) hclamp hv _ _ _ _ _ _
            (le_refl 0) (fun _ => le_refl 0) hwrites
        · rename_i ws ca draws2 hwrites
          have hca := partitionWrites_count _ _ _ _ _ _ _ _ _ _ _ _ hwrites
          split at h
          · rename_i e1 hreads
            injection h with h
            subst h
            exact partitionReads_error _ _ _ _ (ne_of_gt hcpos) hclamp hv _ _ _ _ _ _
              (le_refl 0) (fun _ => hca) hreads
          · exact absurd h (by simp)
  refine ⟨⟨by omega, by omega, ne_of_gt hcpos, by omega⟩, ?_, ?_, main⟩
  · intro h
    rcases main _ h with h | h <;> exact absurd h (by decide)
  · intro h
    rcases main _ h with h | h <;> exact absurd h (by decide)

/-- Witness for C20: the configuration `RMW(100, 2, 3, 2, 10)` on the draws 5,
15, 3, 7, which end inside the write loop. -/
theorem RMW_acrossPartitions_no_error_branch_witness :
    RMW.acrossPartitions 100 2 3 2 10 ⟨0⟩ [5, 15, 3, 7] = Except.error Err.noDraws ∧
    ((((100 : Int) ≠ 0 ∧ (10 : Int) ≠ 0 ∧ Int.tdiv 100 10 ≠ 0 ∧ RMW.clampK 2 10 ≠ 0) ∧
      RMW.acrossPartitions 100 2 3 2 10 ⟨0⟩ [5, 15, 3, 7] ≠ Except.error Err.divByZero ∧
      RMW.acrossPartitions 100 2 3 2 10 ⟨0⟩ [5, 15, 3, 7] ≠ Except.error Err.outOfRange ∧
      ∀ e, RMW.acrossPartitions 100 2 3 2 10 ⟨0⟩ [5, 15, 3, 7] = Except.error e →
        e = Err.dcheck ∨ e = Err.noDraws)) :=
  ⟨rfl, RMW_acrossPartitions_no_error_branch 100 2 3 2 10 ⟨0⟩ [5, 15, 3, 7]
    (by decide) (by decide) (by decide) (by decide) (by decide)⟩

end TxnTypes
